import Mathlib

/-!
# Verification of the vorticity node runtime and replication layer

Shallow embedding of the vorticity repository (a Maelstrom distributed-systems
workbench written in Rust) together with proofs and refutations of the frozen
specification claims.

Embedded components:
* the wire envelope (src/src/message.rs: Message, Body),
* the base64 engine used for gossip payloads
  (src/src/bin/broadcast.rs, g-counter.rs, kafka: ENGINE with
  base64::alphabet::URL_SAFE and GeneralPurposeConfig::new, whose defaults
  enable padding on encode and require canonical padding on decode),
* the scheduler event loop (src/src/lib.rs: event_loop),
* neighborhood selection at init (broadcast.rs, g-counter.rs, kafka/main.rs),
* the gossip send branch (broadcast.rs, g-counter.rs: Injected::Gossip),
* the g-counter add/read handlers (g-counter.rs),
* the kafka send/poll handlers (kafka/main.rs and kafka.rs, identical logic),
* the pending-RPC reply dispatch (rpc/lin_kv.rs: LinKv::handle_reply,
  bin/kafka.rs: KafkaNode::handle_reply),
* an operation-set model of the anti-entropy gossip protocol, with the CRDT
  modelled from the specification's state-vector / diff interface (the
  concrete CRDT is the external yrs crate, declared out of scope by the spec).

Machine integers of the source are modelled as Nat; fallible code returns
Option or Except; stateful code passes state explicitly.
-/

/-! ## Wire envelope (src/src/message.rs) -/

/-- Body of a message: msg_id (wire name of Rust field `id`), in_reply_to,
and the flattened payload.  From `struct Body<Payload>` in message.rs. -/
structure Body (Payload : Type) where
  id : Option Nat
  in_reply_to : Option Nat
  payload : Payload
  deriving Repr, DecidableEq

/-- Envelope: src, dst (wire name `dest`) and body.
From `struct Message<Payload>` in message.rs. -/
structure Message (Payload : Type) where
  src : String
  dst : String
  body : Body Payload
  deriving Repr, DecidableEq

/-! ## Base64 engine

The three gossip workloads all declare
`ENGINE = GeneralPurpose::new(&base64::alphabet::URL_SAFE, GeneralPurposeConfig::new())`.
The URL-safe alphabet maps 0..61 to A-Z a-z 0-9 and 62, 63 to the characters
minus and underscore.  `GeneralPurposeConfig::new()` keeps the crate defaults:
`encode_padding = true`, `decode_padding_mode = RequireCanonical`,
`decode_allow_trailing_bits = false`.  Bytes are modelled as Nat (< 256). -/

/-- The URL-safe sextet table (base64::alphabet::URL_SAFE). -/
def sextetChar (v : Nat) : Char :=
  if v < 26 then Char.ofNat (65 + v)
  else if v < 52 then Char.ofNat (97 + (v - 26))
  else if v < 62 then Char.ofNat (48 + (v - 52))
  else if v = 62 then '-'
  else '_'

/-- Inverse of the sextet table; none for characters outside the alphabet
(in particular for the padding character). -/
def charVal (c : Char) : Option Nat :=
  if 'A' ≤ c ∧ c ≤ 'Z' then some (c.toNat - 65)
  else if 'a' ≤ c ∧ c ≤ 'z' then some (c.toNat - 97 + 26)
  else if '0' ≤ c ∧ c ≤ '9' then some (c.toNat - 48 + 52)
  else if c = '-' then some 62
  else if c = '_' then some 63
  else none

/-- Padded base64 encoding of a byte list, three input bytes per four output
characters, trailing short chunk padded with the character = as the engine's
`encode_padding = true` default does. -/
def b64encodeChunks : List Nat → List Char
  | [] => []
  | [b0] =>
      [sextetChar (b0 / 4), sextetChar (b0 % 4 * 16), '=', '=']
  | [b0, b1] =>
      [sextetChar (b0 / 4), sextetChar (b0 % 4 * 16 + b1 / 16),
       sextetChar (b1 % 16 * 4), '=']
  | b0 :: b1 :: b2 :: rest =>
      sextetChar (b0 / 4) :: sextetChar (b0 % 4 * 16 + b1 / 16) ::
      sextetChar (b1 % 16 * 4 + b2 / 64) :: sextetChar (b2 % 64) ::
      b64encodeChunks rest

/-- `ENGINE.encode`: padded URL-safe base64 of a byte list. -/
def b64encode (bs : List Nat) : String :=
  String.mk (b64encodeChunks bs)

/-- Unpadded URL-safe base64 encoding.  This follows the specification's
words ("URL-safe alphabet, no padding"); the source's engine differs from it
whenever the byte count is not a multiple of three. -/
def b64encodeNoPadChunks : List Nat → List Char
  | [] => []
  | [b0] =>
      [sextetChar (b0 / 4), sextetChar (b0 % 4 * 16)]
  | [b0, b1] =>
      [sextetChar (b0 / 4), sextetChar (b0 % 4 * 16 + b1 / 16),
       sextetChar (b1 % 16 * 4)]
  | b0 :: b1 :: b2 :: rest =>
      sextetChar (b0 / 4) :: sextetChar (b0 % 4 * 16 + b1 / 16) ::
      sextetChar (b1 % 16 * 4 + b2 / 64) :: sextetChar (b2 % 64) ::
      b64encodeNoPadChunks rest

/-- Unpadded URL-safe base64 of a byte list, per the specification's words. -/
def b64encodeNoPad (bs : List Nat) : String :=
  String.mk (b64encodeNoPadChunks bs)

/-- Decoding of the final four-character group under
`DecodePaddingMode::RequireCanonical` with `decode_allow_trailing_bits =
false`: padding must be present exactly where the canonical encoding puts it
and the unused low bits of the last data character must be zero. -/
def b64decodeFinal (a b c d : Char) : Option (List Nat) :=
  match charVal a, charVal b with
  | some va, some vb =>
    if c = '=' ∧ d = '=' then
      if vb % 16 = 0 then some [va * 4 + vb / 16] else none
    else if d = '=' then
      match charVal c with
      | some vc =>
          if vc % 4 = 0 then
            some [va * 4 + vb / 16, vb % 16 * 16 + vc / 4]
          else none
      | none => none
    else
      match charVal c, charVal d with
      | some vc, some vd =>
          some [va * 4 + vb / 16, vb % 16 * 16 + vc / 4, vc % 4 * 64 + vd]
      | _, _ => none
  | _, _ => none

/-- Chunked canonical decoding: groups of four characters; padding may occur
only in the final group; any input whose length is not a multiple of four is
rejected (RequireCanonical refuses encodings whose padding was stripped). -/
def b64decodeChunks : List Char → Option (List Nat)
  | [] => some []
  | a :: b :: c :: d :: rest =>
    match rest with
    | [] => b64decodeFinal a b c d
    | _ =>
      match charVal a, charVal b, charVal c, charVal d with
      | some va, some vb, some vc, some vd =>
        match b64decodeChunks rest with
        | some bs =>
            some ((va * 4 + vb / 16) :: (vb % 16 * 16 + vc / 4) ::
                  (vc % 4 * 64 + vd) :: bs)
        | none => none
      | _, _, _, _ => none
  | _ => none

/-- `ENGINE.decode` under the engine's RequireCanonical padding mode. -/
def b64decodeCanonical (s : String) : Option (List Nat) :=
  b64decodeChunks s.data

/-- The URL-safe base64 alphabet as a character predicate. -/
def isUrlSafeB64Char (c : Char) : Bool :=
  ('A' ≤ c && c ≤ 'Z') || ('a' ≤ c && c ≤ 'z') || ('0' ≤ c && c ≤ '9') ||
  c = '-' || c = '_'

theorem sextetChar_urlSafe : ∀ v : Fin 64, isUrlSafeB64Char (sextetChar v.val) = true := by
  decide

theorem sextetChar_ne_pad : ∀ v : Fin 64, sextetChar v.val ≠ '=' := by
  decide

theorem charVal_sextetChar : ∀ v : Fin 64, charVal (sextetChar v.val) = some v.val := by
  decide

theorem sextetChar_urlSafe_of_lt {v : Nat} (h : v < 64) :
    isUrlSafeB64Char (sextetChar v) = true :=
  sextetChar_urlSafe ⟨v, h⟩

theorem sextetChar_ne_pad_of_lt {v : Nat} (h : v < 64) : sextetChar v ≠ '=' :=
  sextetChar_ne_pad ⟨v, h⟩

theorem charVal_sextetChar_of_lt {v : Nat} (h : v < 64) :
    charVal (sextetChar v) = some v :=
  charVal_sextetChar ⟨v, h⟩

theorem b64encodeChunks_length_mod (bs : List Nat) :
    (b64encodeChunks bs).length % 4 = 0 := by
  induction bs using b64encodeChunks.induct with
  | case1 => rfl
  | case2 b0 => simp [b64encodeChunks]
  | case3 b0 b1 => simp [b64encodeChunks]
  | case4 b0 b1 b2 rest ih =>
      simp only [b64encodeChunks, List.length_cons]
      omega

theorem b64encodeChunks_mem (bs : List Nat) (hv : ∀ b ∈ bs, b < 256) :
    ∀ c ∈ b64encodeChunks bs, isUrlSafeB64Char c = true ∨ c = '=' := by
  induction bs using b64encodeChunks.induct with
  | case1 => simp [b64encodeChunks]
  | case2 b0 =>
      have h0 : b0 < 256 := hv b0 (by simp)
      simp only [b64encodeChunks, List.mem_cons, List.mem_singleton]
      rintro c (rfl | rfl | rfl | rfl | h)
      · exact Or.inl (sextetChar_urlSafe_of_lt (by omega))
      · exact Or.inl (sextetChar_urlSafe_of_lt (by omega))
      · exact Or.inr rfl
      · exact Or.inr rfl
      · simp at h
  | case3 b0 b1 =>
      have h0 : b0 < 256 := hv b0 (by simp)
      have h1 : b1 < 256 := hv b1 (by simp)
      simp only [b64encodeChunks, List.mem_cons, List.mem_singleton]
      rintro c (rfl | rfl | rfl | rfl | h)
      · exact Or.inl (sextetChar_urlSafe_of_lt (by omega))
      · exact Or.inl (sextetChar_urlSafe_of_lt (by omega))
      · exact Or.inl (sextetChar_urlSafe_of_lt (by omega))
      · exact Or.inr rfl
      · simp at h
  | case4 b0 b1 b2 rest ih =>
      have h0 : b0 < 256 := hv b0 (by simp)
      have h1 : b1 < 256 := hv b1 (by simp)
      have h2 : b2 < 256 := hv b2 (by simp)
      have hv' : ∀ b ∈ rest, b < 256 := fun b hb => hv b (by simp [hb])
      simp only [b64encodeChunks, List.mem_cons]
      rintro c (rfl | rfl | rfl | rfl | h)
      · exact Or.inl (sextetChar_urlSafe_of_lt (by omega))
      · exact Or.inl (sextetChar_urlSafe_of_lt (by omega))
      · exact Or.inl (sextetChar_urlSafe_of_lt (by omega))
      · exact Or.inl (sextetChar_urlSafe_of_lt (by omega))
      · exact ih hv' c h

theorem b64encodeChunks_pad_iff (bs : List Nat) (hv : ∀ b ∈ bs, b < 256) :
    '=' ∈ b64encodeChunks bs ↔ bs.length % 3 ≠ 0 := by
  induction bs using b64encodeChunks.induct with
  | case1 => simp [b64encodeChunks]
  | case2 b0 => simp [b64encodeChunks]
  | case3 b0 b1 => simp [b64encodeChunks]
  | case4 b0 b1 b2 rest ih =>
      have h0 : b0 < 256 := hv b0 (by simp)
      have h1 : b1 < 256 := hv b1 (by simp)
      have h2 : b2 < 256 := hv b2 (by simp)
      have hv' : ∀ b ∈ rest, b < 256 := fun b hb => hv b (by simp [hb])
      have hne0 := sextetChar_ne_pad_of_lt (v := b0 / 4) (by omega)
      have hne1 := sextetChar_ne_pad_of_lt (v := b0 % 4 * 16 + b1 / 16) (by omega)
      have hne2 := sextetChar_ne_pad_of_lt (v := b1 % 16 * 4 + b2 / 64) (by omega)
      have hne3 := sextetChar_ne_pad_of_lt (v := b2 % 64) (by omega)
      simp only [b64encodeChunks, List.mem_cons, List.length_cons]
      rw [ih hv']
      constructor
      · rintro (h | h | h | h | h)
        · exact absurd h.symm hne0
        · exact absurd h.symm hne1
        · exact absurd h.symm hne2
        · exact absurd h.symm hne3
        · omega
      · intro h
        have : rest.length % 3 ≠ 0 := by omega
        tauto

theorem b64encodeChunks_ne_nil (b : Nat) (bs : List Nat) :
    b64encodeChunks (b :: bs) ≠ [] := by
  match bs with
  | [] => simp [b64encodeChunks]
  | [b1] => simp [b64encodeChunks]
  | b1 :: b2 :: rest => simp [b64encodeChunks]

theorem b64decode_encode (bs : List Nat) (hv : ∀ b ∈ bs, b < 256) :
    b64decodeChunks (b64encodeChunks bs) = some bs := by
  induction bs using b64encodeChunks.induct with
  | case1 => rfl
  | case2 b0 =>
      have h0 : b0 < 256 := hv b0 (by simp)
      simp only [b64encodeChunks, b64decodeChunks, b64decodeFinal,
        charVal_sextetChar_of_lt (show b0 / 4 < 64 by omega),
        charVal_sextetChar_of_lt (show b0 % 4 * 16 < 64 by omega),
        and_self, if_true, Nat.mul_mod_left]
      refine congrArg some (List.cons_eq_cons.mpr ⟨by omega, rfl⟩)
  | case3 b0 b1 =>
      have h0 : b0 < 256 := hv b0 (by simp)
      have h1 : b1 < 256 := hv b1 (by simp)
      have hc : sextetChar (b1 % 16 * 4) = '=' ↔ False := by
        simp [sextetChar_ne_pad_of_lt (show b1 % 16 * 4 < 64 by omega)]
      simp only [b64encodeChunks, b64decodeChunks, b64decodeFinal,
        charVal_sextetChar_of_lt (show b0 / 4 < 64 by omega),
        charVal_sextetChar_of_lt (show b0 % 4 * 16 + b1 / 16 < 64 by omega),
        charVal_sextetChar_of_lt (show b1 % 16 * 4 < 64 by omega),
        hc, false_and, if_false, if_true, Nat.mul_mod_left]
      refine congrArg some (List.cons_eq_cons.mpr ⟨by omega, ?_⟩)
      exact List.cons_eq_cons.mpr ⟨by omega, rfl⟩
  | case4 b0 b1 b2 rest ih =>
      have h0 : b0 < 256 := hv b0 (by simp)
      have h1 : b1 < 256 := hv b1 (by simp)
      have h2 : b2 < 256 := hv b2 (by simp)
      have hv' : ∀ b ∈ rest, b < 256 := fun b hb => hv b (by simp [hb])
      have hc3 : sextetChar (b2 % 64) = '=' ↔ False := by
        simp [sextetChar_ne_pad_of_lt (show b2 % 64 < 64 by omega)]
      rcases rest with _ | ⟨r, rs⟩
      · simp only [b64encodeChunks, b64decodeChunks, b64decodeFinal,
          charVal_sextetChar_of_lt (show b0 / 4 < 64 by omega),
          charVal_sextetChar_of_lt (show b0 % 4 * 16 + b1 / 16 < 64 by omega),
          charVal_sextetChar_of_lt (show b1 % 16 * 4 + b2 / 64 < 64 by omega),
          charVal_sextetChar_of_lt (show b2 % 64 < 64 by omega),
          hc3, and_false, if_false]
        refine congrArg some (List.cons_eq_cons.mpr ⟨by omega, ?_⟩)
        refine List.cons_eq_cons.mpr ⟨by omega, ?_⟩
        exact List.cons_eq_cons.mpr ⟨by omega, rfl⟩
      · have hdec := ih hv'
        rcases hrest : b64encodeChunks (r :: rs) with _ | ⟨x, xs⟩
        · exact absurd hrest (b64encodeChunks_ne_nil r rs)
        · rw [hrest] at hdec
          simp only [b64encodeChunks, hrest, b64decodeChunks,
            charVal_sextetChar_of_lt (show b0 / 4 < 64 by omega),
            charVal_sextetChar_of_lt (show b0 % 4 * 16 + b1 / 16 < 64 by omega),
            charVal_sextetChar_of_lt (show b1 % 16 * 4 + b2 / 64 < 64 by omega),
            charVal_sextetChar_of_lt (show b2 % 64 < 64 by omega),
            hdec]
          refine congrArg some (List.cons_eq_cons.mpr ⟨by omega, ?_⟩)
          refine List.cons_eq_cons.mpr ⟨by omega, ?_⟩
          exact List.cons_eq_cons.mpr ⟨by omega, rfl⟩

theorem b64decodeChunks_of_length_mod (l : List Char) (h : l.length % 4 ≠ 0) :
    b64decodeChunks l = none := by
  match l with
  | [] => simp at h
  | [a] => simp [b64decodeChunks]
  | [a, b] => simp [b64decodeChunks]
  | [a, b, c] => simp [b64decodeChunks]
  | a :: b :: c :: d :: rest =>
    have h' : rest.length % 4 ≠ 0 := by
      simp only [List.length_cons] at h
      omega
    have ih := b64decodeChunks_of_length_mod rest h'
    rcases rest with _ | ⟨r, rs⟩
    · simp at h'
    · simp only [b64decodeChunks]
      cases hca : charVal a <;> cases hcb : charVal b <;>
        cases hcc : charVal c <;> cases hcd : charVal d <;> simp [ih]

/-! ## Scheduler event loop (src/src/lib.rs)

`event_loop` consumes the inbound mpsc channel with `for input in msg_in_rx`.
The channel is modelled as the list of `ToEvent` values it yields before all
senders are dropped.  The generic parameters of the Rust function are kept:
R stands for the raw JSON value held by `ToEvent::Message`, P for the
workload payload, IP for the injected payload and σ for the workload state.
Raw-to-typed conversion (`ToEvent::to_event`, which succeeds always for
`Injected` and `Eof` and only when serde accepts the payload for `Message`)
is a parameter `decode`.  Workload and handler failures are Except values,
matching the `?` propagation in the Rust code. -/

/-- `enum Event` from message.rs.  The doc comment of the `Eof` variant in the
source reads: Indicates that the event loop should stop. -/
inductive Event (P IP : Type) where
  | message (msg : Message P)
  | injected (ip : IP)
  | eof
  deriving Repr, DecidableEq

/-- `enum ToEvent` from lib.rs: the raw shape sitting on the inbound channel. -/
inductive ToEvent (R IP : Type) where
  | message (raw : R)
  | injected (ip : IP)
  | eof
  deriving Repr, DecidableEq

/-- `ToEvent::to_event`: Injected and Eof always convert; a raw Message
converts exactly when the workload payload deserializer accepts it. -/
def ToEvent.to_event {R P IP : Type} (decode : R → Option (Message P)) :
    ToEvent R IP → Option (Event P IP)
  | .message raw => (decode raw).map Event.message
  | .injected ip => some (Event.injected ip)
  | .eof => some Event.eof

/-- One registered extension handler (`trait Handler` in lib.rs), with its
step effect abstracted to its result. -/
structure ExtHandler (R : Type) where
  can_handle : R → Bool
  hstep : R → Except String Unit

/-- First handler of the registry (in its iteration order) whose `can_handle`
accepts the raw event, together with its position.  Models the
`for handler in registry.values_mut()` loop in event_loop. -/
def findHandler {R : Type} (handlers : List (ExtHandler R)) (raw : R) :
    Option (Nat × ExtHandler R) :=
  match handlers with
  | [] => none
  | h :: rest =>
      if h.can_handle raw then some (0, h)
      else (findHandler rest raw).map fun p => (p.1 + 1, p.2)

/-- Observable dispatch decisions of the event loop, one entry per channel
element that was consumed.  `noHandlerError` is what the specification asks
for when no handler accepts an undecodable message; the source never emits
it (the constructor exists so that the claim can be stated). -/
inductive Dispatch (P IP R : Type) where
  | stepEvent (e : Event P IP)
  | handlerStep (idx : Nat) (raw : R)
  | droppedSilently (raw : R)
  | noHandlerError (raw : R)
  deriving Repr, DecidableEq

/-- `event_loop` from lib.rs, lines 172-205.  For every element pulled from
the channel: if `to_event` succeeds the event is dispatched to `node.step`
(this includes `Eof`, after which the loop KEEPS RUNNING — the `for` loop
only ends when the channel closes); otherwise the raw message is offered to
the first accepting extension handler; if none accepts, nothing happens.
Errors returned by the node step or a handler step abort the loop, as the
`?` operator does in the source.  Returns the dispatch log and the final
workload state or the propagated error. -/
def event_loop {R P IP σ : Type} (decode : R → Option (Message P))
    (stepFn : σ → Event P IP → Except String σ)
    (handlers : List (ExtHandler R)) :
    σ → List (ToEvent R IP) → List (Dispatch P IP R) × Except String σ
  | s, [] => ([], Except.ok s)
  | s, input :: rest =>
    match ToEvent.to_event decode input with
    | some ev =>
      match stepFn s ev with
      | .ok s' =>
          let r := event_loop decode stepFn handlers s' rest
          (Dispatch.stepEvent ev :: r.1, r.2)
      | .error e => ([Dispatch.stepEvent ev], .error e)
    | none =>
      match input with
      | .message raw =>
        match findHandler handlers raw with
        | some (idx, h) =>
          match h.hstep raw with
          | .ok _ =>
              let r := event_loop decode stepFn handlers s rest
              (Dispatch.handlerStep idx raw :: r.1, r.2)
          | .error e => ([Dispatch.handlerStep idx raw], .error e)
        | none =>
            let r := event_loop decode stepFn handlers s rest
            (Dispatch.droppedSilently raw :: r.1, r.2)
      | _ => ([], .error "impossible position")

theorem findHandler_none_iff {R : Type} (handlers : List (ExtHandler R)) (raw : R) :
    findHandler handlers raw = none ↔ ∀ h ∈ handlers, h.can_handle raw = false := by
  induction handlers with
  | nil => simp [findHandler]
  | cons h rest ih =>
      by_cases hc : h.can_handle raw
      · simp [findHandler, hc]
      · rcases hfr : findHandler rest raw with _ | p
        · simp only [findHandler, if_neg hc, hfr]
          simp only [List.mem_cons]
          constructor
          · intro _ x hx
            rcases hx with rfl | hx'
            · exact Bool.eq_false_iff.mpr hc
            · exact (ih.mp hfr) x hx'
          · intro _
            rfl
        · simp only [findHandler, if_neg hc, hfr]
          simp only [List.mem_cons, Option.map_some]
          constructor
          · intro hcontra
            exact absurd hcontra (by simp)
          · intro hall
            have : findHandler rest raw = none :=
              ih.mpr fun x hx => hall x (Or.inr hx)
            rw [this] at hfr
            exact absurd hfr (by simp)

theorem findHandler_some {R : Type} (handlers : List (ExtHandler R)) (raw : R)
    (i : Nat) (h : ExtHandler R) (hf : findHandler handlers raw = some (i, h)) :
    ∃ hi : i < handlers.length,
      handlers.get ⟨i, hi⟩ = h ∧ h.can_handle raw = true ∧
      ∀ j (hj : j < i), (handlers.get ⟨j, by omega⟩).can_handle raw = false := by
  induction handlers generalizing i with
  | nil => simp [findHandler] at hf
  | cons h0 rest ih =>
      by_cases hc : h0.can_handle raw
      · simp only [findHandler, if_pos hc, Option.some.injEq, Prod.mk.injEq] at hf
        obtain ⟨rfl, rfl⟩ := hf
        exact ⟨by simp, rfl, hc, fun j hj => absurd hj (by omega)⟩
      · rcases hfr : findHandler rest raw with _ | ⟨i', h'⟩
        · simp [findHandler, if_neg hc, hfr] at hf
        · have hf2 : (some (i' + 1, h') : Option (Nat × ExtHandler R)) = some (i, h) := by
            rw [← hf]
            simp [findHandler, if_neg hc, hfr]
          have hph := Option.some.inj hf2
          have hf' : i = i' + 1 ∧ h = h' :=
            ⟨((Prod.ext_iff.mp hph).1).symm, ((Prod.ext_iff.mp hph).2).symm⟩
          obtain ⟨rfl, rfl⟩ := hf'
          obtain ⟨hi', hget, hcan, hbefore⟩ := ih i' hfr
          refine ⟨by simpa using Nat.succ_lt_succ hi', by simpa using hget, hcan, ?_⟩
          intro j hj
          match j with
          | 0 => simpa using Bool.eq_false_iff.mpr hc
          | j' + 1 =>
              have hj' : j' < i' := by omega
              simpa using hbefore j' hj'

/-- Claim C2 as stated: when an inbound message fails to deserialize into the
workload payload and no registered extension handler accepts it, the event
loop surfaces a NoHandler error.  (Stated at concrete raw/payload/state
types; the counterexample below refutes it.) -/
def C2ClaimStatement : Prop :=
  ∀ (decode : Nat → Option (Message Unit))
    (stepFn : Nat → Event Unit Unit → Except String Nat)
    (handlers : List (ExtHandler Nat)) (s : Nat) (raw : Nat)
    (rest : List (ToEvent Nat Unit)),
    decode raw = none →
    (∀ h ∈ handlers, h.can_handle raw = false) →
    Dispatch.noHandlerError raw ∈
      (event_loop decode stepFn handlers s (ToEvent.message raw :: rest)).1

/-- Claim C2, counterexample: with an empty handler registry and a message
whose payload the workload rejects, event_loop silently drops the message and
continues; no NoHandler error is surfaced anywhere (Error::NoHandler exists
in error.rs but the loop in lib.rs never constructs it). -/
theorem c2_no_handler_is_silent : ¬ C2ClaimStatement := by
  intro hclaim
  have h := hclaim (fun _ => none) (fun s _ => .ok s) [] 0 0 [] rfl (by simp)
  simp [event_loop, ToEvent.to_event, findHandler] at h

/-- Claim C2 (amended): for an inbound message whose payload fails to
deserialize, the scheduler invokes the step of the first handler in the
registry's iteration order whose can_handle accepts the raw JSON; if no
registered handler accepts it, the message is dropped silently — no error is
surfaced — and the loop carries on with the remaining events and an
unchanged workload state. -/
theorem c2_amended {R P IP σ : Type} (decode : R → Option (Message P))
    (stepFn : σ → Event P IP → Except String σ)
    (handlers : List (ExtHandler R)) (s : σ) (raw : R)
    (rest : List (ToEvent R IP)) (hdec : decode raw = none) :
    (∀ i h, findHandler handlers raw = some (i, h) →
      (∃ hi : i < handlers.length,
          handlers.get ⟨i, hi⟩ = h ∧ h.can_handle raw = true ∧
          ∀ j (hj : j < i), (handlers.get ⟨j, by omega⟩).can_handle raw = false) ∧
      (event_loop decode stepFn handlers s (ToEvent.message raw :: rest)).1.head? =
        some (Dispatch.handlerStep i raw)) ∧
    ((∀ h ∈ handlers, h.can_handle raw = false) →
      event_loop decode stepFn handlers s (ToEvent.message raw :: rest) =
        (Dispatch.droppedSilently raw ::
            (event_loop decode stepFn handlers s rest).1,
         (event_loop decode stepFn handlers s rest).2)) := by
  constructor
  · intro i h hf
    refine ⟨findHandler_some handlers raw i h hf, ?_⟩
    simp only [event_loop, ToEvent.to_event, hdec, Option.map_none, hf]
    rcases hs : h.hstep raw with e | u
    · simp
    · simp
  · intro hnone
    have hfn : findHandler handlers raw = none :=
      (findHandler_none_iff handlers raw).mpr hnone
    simp [event_loop, ToEvent.to_event, hdec, hfn]

/-- Claim C1: the spec says the scheduler terminates its loop right after
routing Eof to workload.step, so nothing arriving after Eof is dispatched.
The code refutes this: the `for input in msg_in_rx` loop in event_loop has no
break on Eof (contradicting the doc comment on `Event::Eof`, "Indicates that
the event loop should stop"), so an injected gossip signal that arrives after
Eof is still dispatched to step; the loop only ends when every sender is
dropped. -/
theorem c1_event_after_eof_still_dispatched :
    event_loop (fun _ : Nat => (none : Option (Message Unit)))
      (fun (s : Nat) (_ : Event Unit Unit) => Except.ok (s + 1)) [] 0
      [ToEvent.eof, ToEvent.injected ()] =
    ([Dispatch.stepEvent Event.eof, Dispatch.stepEvent (Event.injected ())],
     Except.ok 2) := by
  rfl

/-! ## Neighborhood selection at initialization

broadcast.rs and g-counter.rs (`from_init`):
  node_ids.iter().cloned().filter(|_| rng.gen_bool(0.75)).collect()
kafka.rs (`from_init`):
  node_ids.iter().filter(|&_| rng.random_bool(0.75)).cloned().collect()
kafka/main.rs (`init`):
  neighbors().filter(|&_| if cfg!(test) || node_count < 5 { true }
                          else { rng.random_bool(0.75) })
None of them removes the node's own id from the list first.  The random
draws consumed by the filter closures are passed in positionally as a list
of booleans. -/

/-- Positional random filter shared by the neighborhood selectors. -/
def filterByDraws (node_ids : List String) (draws : List Bool) : List String :=
  (node_ids.zip draws).filterMap fun p => if p.2 then some p.1 else none

/-- BroadcastNode::from_init neighborhood (broadcast.rs lines 172-178). -/
def broadcastNeighborhood (node_ids : List String) (draws : List Bool) : List String :=
  filterByDraws node_ids draws

/-- GCounterNode::from_init neighborhood (g-counter.rs lines 164-170). -/
def gCounterNeighborhood (node_ids : List String) (draws : List Bool) : List String :=
  filterByDraws node_ids draws

/-- KafkaNode::from_init neighborhood (kafka.rs lines 191-197). -/
def kafkaNeighborhood (node_ids : List String) (draws : List Bool) : List String :=
  filterByDraws node_ids draws

/-- KafkaNode::init neighborhood (kafka/main.rs lines 143-155): every node is
kept when compiled for tests or when the cluster has fewer than five nodes,
otherwise the 0.75 draw decides. -/
def kafkaMainNeighborhood (node_ids : List String) (cfgTest : Bool)
    (draws : List Bool) : List String :=
  (node_ids.zip draws).filterMap fun p =>
    if cfgTest || node_ids.length < 5 || p.2 then some p.1 else none

/-- Claim C3 as stated: the neighborhood excludes the node itself, and when
the cluster has fewer than five nodes every remaining node is included. -/
def C3ClaimStatement : Prop :=
  ∀ (node_id : String) (node_ids : List String) (draws : List Bool),
    node_ids.length = draws.length →
    node_id ∈ node_ids →
    node_id ∉ broadcastNeighborhood node_ids draws ∧
    (node_ids.length < 5 →
      ∀ n ∈ node_ids, n ≠ node_id → n ∈ broadcastNeighborhood node_ids draws)

/-- Claim C3, counterexample: in a two-node cluster with draws true,false the
broadcast neighborhood is exactly the node itself — self is not excluded and
the other node is left out even though the cluster is small. -/
theorem c3_self_not_excluded : ¬ C3ClaimStatement := by
  intro hclaim
  have h := hclaim "n1" ["n1", "n2"] [true, false] rfl (by simp)
  have hmem : "n1" ∈ broadcastNeighborhood ["n1", "n2"] [true, false] := by
    simp [broadcastNeighborhood, filterByDraws]
  exact h.1 hmem

theorem filterByDraws_cons (x : String) (xs : List String) (d : Bool) (ds : List Bool) :
    filterByDraws (x :: xs) (d :: ds) =
      (if d then [x] else []) ++ filterByDraws xs ds := by
  cases d <;> simp [filterByDraws]

theorem filterByDraws_subset (xs : List String) (ds : List Bool) :
    ∀ y ∈ filterByDraws xs ds, y ∈ xs := by
  intro y hy
  simp only [filterByDraws, List.mem_filterMap] at hy
  obtain ⟨⟨a, b⟩, hmem, hif⟩ := hy
  have hay : a = y := by
    rcases b with _ | _
    · simp at hif
    · simpa using hif
  subst hay
  exact (List.of_mem_zip hmem).1

theorem filterByDraws_mem (node_ids : List String) (draws : List Bool)
    (hlen : node_ids.length = draws.length) (hnd : node_ids.Nodup)
    (i : Nat) (hi : i < node_ids.length) (hi2 : i < draws.length) :
    node_ids.get ⟨i, hi⟩ ∈ filterByDraws node_ids draws ↔
      draws.get ⟨i, hi2⟩ = true := by
  induction node_ids generalizing draws i with
  | nil => exact absurd hi (by simp)
  | cons x rest ih =>
      rcases draws with _ | ⟨d, ds⟩
      · simp at hlen
      · have hlen' : rest.length = ds.length := by simpa using hlen
        have hx : x ∉ rest := (List.nodup_cons.mp hnd).1
        have hnd' : rest.Nodup := (List.nodup_cons.mp hnd).2
        rw [filterByDraws_cons]
        match i with
        | 0 =>
            cases d
            · have hnot : x ∉ filterByDraws rest ds := fun hmem =>
                hx (filterByDraws_subset rest ds x hmem)
              simpa using hnot
            · simp
        | j + 1 =>
            have hj : j < rest.length := by simpa using hi
            have hj2 : j < ds.length := by simpa using hi2
            have hih := ih ds hlen' hnd' j hj hj2
            cases d
            · simpa using hih
            · have hne : rest.get ⟨j, hj⟩ ≠ x := fun hcontra =>
                hx (hcontra ▸ List.get_mem rest j hj)
              simp only [List.get_cons_succ, if_true, List.singleton_append,
                List.mem_cons]
              rw [or_iff_right hne]
              exact hih

theorem kafkaMainNeighborhood_mem (node_ids : List String) (draws : List Bool)
    (cfgTest : Bool) (hlen : node_ids.length = draws.length)
    (hnd : node_ids.Nodup) (i : Nat) (hi : i < node_ids.length)
    (hi2 : i < draws.length) :
    node_ids.get ⟨i, hi⟩ ∈ kafkaMainNeighborhood node_ids cfgTest draws ↔
      (cfgTest || decide (node_ids.length < 5) || draws.get ⟨i, hi2⟩) = true := by
  by_cases hcond : cfgTest = true ∨ node_ids.length < 5
  · have hall : kafkaMainNeighborhood node_ids cfgTest draws = node_ids := by
      unfold kafkaMainNeighborhood
      have hfn : (node_ids.zip draws).filterMap
          (fun p => if cfgTest || node_ids.length < 5 || p.2 then some p.1 else none) =
          (node_ids.zip draws).filterMap (fun p => some p.1) := by
        congr 1
        funext p
        rw [if_pos (by rcases hcond with h | h <;> simp [h])]
      rw [hfn]
      rw [show (fun (p : String × Bool) => some p.1) =
            some ∘ Prod.fst from rfl]
      rw [List.filterMap_eq_map, List.map_fst_zip node_ids draws (by omega)]
    rw [hall]
    constructor
    · intro _
      rcases hcond with h | h <;> simp [h]
    · intro _
      exact List.get_mem node_ids i hi
  · push_neg at hcond
    have hc1 : cfgTest = false := by
      rcases cfgTest with _ | _
      · rfl
      · exact absurd rfl hcond.1
    have hc2 : decide (node_ids.length < 5) = false := by
      simpa using hcond.2
    have heq : kafkaMainNeighborhood node_ids cfgTest draws =
        filterByDraws node_ids draws := by
      unfold kafkaMainNeighborhood filterByDraws
      congr 1
      funext p
      have hnotlt : ¬ node_ids.length < 5 := by omega
      rcases p with ⟨a, b⟩
      rcases b with _ | _ <;> simp [hc1, hnotlt]
    rw [heq, filterByDraws_mem node_ids draws hlen hnd i hi hi2]
    simp [hc1, hc2]

/-- Claim C3 (amended): the neighborhood is chosen once at initialization
from the full cluster list with the node itself NOT excluded.  In broadcast,
g-counter and the kafka.rs variant each node of the cluster (self included)
is kept independently with probability 0.75 and there is no small-cluster
floor; in the kafka/main.rs variant every node (self included) is kept when
compiled for tests or when the cluster has fewer than five nodes, and
otherwise each is kept independently with probability 0.75.  The draws are
the booleans the rng produced, passed positionally. -/
theorem c3_amended (node_ids : List String) (draws : List Bool) (cfgTest : Bool)
    (hlen : node_ids.length = draws.length) (hnd : node_ids.Nodup)
    (i : Nat) (hi : i < node_ids.length) (hi2 : i < draws.length) :
    (node_ids.get ⟨i, hi⟩ ∈ broadcastNeighborhood node_ids draws ↔
      draws.get ⟨i, hi2⟩ = true) ∧
    (node_ids.get ⟨i, hi⟩ ∈ gCounterNeighborhood node_ids draws ↔
      draws.get ⟨i, hi2⟩ = true) ∧
    (node_ids.get ⟨i, hi⟩ ∈ kafkaNeighborhood node_ids draws ↔
      draws.get ⟨i, hi2⟩ = true) ∧
    (node_ids.get ⟨i, hi⟩ ∈ kafkaMainNeighborhood node_ids cfgTest draws ↔
      (cfgTest || decide (node_ids.length < 5) || draws.get ⟨i, hi2⟩) = true) :=
  ⟨filterByDraws_mem node_ids draws hlen hnd i hi hi2,
   filterByDraws_mem node_ids draws hlen hnd i hi hi2,
   filterByDraws_mem node_ids draws hlen hnd i hi hi2,
   kafkaMainNeighborhood_mem node_ids draws cfgTest hlen hnd i hi hi2⟩

/-! ## Gossip send branch (broadcast.rs lines 112-144, g-counter.rs 105-135)

On an Injected::Gossip signal the node walks its neighborhood; for each peer
it looks up the recorded remote state vector, encodes the diff against it,
and skips the peer when the remote state vector equals the local one and the
10 percent draw came up false; otherwise it emits a gossip message with no
msg_id.  The yrs state-vector type and its binary encoders encode_diff_v1 /
encode_v1 belong to the external CRDT crate (out of the spec's scope), so
they are parameters SV, encode_diff_v1, encode_v1 here; the random draw is
an input keyed by peer, as the claim words it. -/

/-- The gossip payload `Payload::Gossip \x7b diff, state_vector \x7d`. -/
structure GossipPayload where
  diff : String
  state_vector : String
  deriving Repr, DecidableEq

/-- The Injected::Gossip branch of BroadcastNode::step / GCounterNode::step. -/
def sendGossip {SV : Type} [DecidableEq SV] (node_id : String)
    (neighborhood : List String) (known : String → SV)
    (encode_diff_v1 : SV → List Nat) (state_vector : SV)
    (encode_v1 : SV → List Nat) (draw : String → Bool) :
    List (Message GossipPayload) :=
  neighborhood.filterMap fun n =>
    if known n = state_vector ∧ draw n = false then none
    else some
      { src := node_id, dst := n,
        body :=
          { id := none, in_reply_to := none,
            payload :=
              { diff := b64encode (encode_diff_v1 (known n)),
                state_vector := b64encode (encode_v1 state_vector) } } }

/-- The message the claim says is emitted to peer n: base64 of the diff
against the recorded remote state vector, base64 of the local state vector,
no msg_id. -/
def gossipMsgTo {SV : Type} (node_id : String) (known : String → SV)
    (encode_diff_v1 : SV → List Nat) (state_vector : SV)
    (encode_v1 : SV → List Nat) (n : String) : Message GossipPayload :=
  { src := node_id, dst := n,
    body :=
      { id := none, in_reply_to := none,
        payload :=
          { diff := b64encode (encode_diff_v1 (known n)),
            state_vector := b64encode (encode_v1 state_vector) } } }

/-- Claim C4: for every Gossip timer signal and every peer n of the
neighborhood, the gossip message carrying the base64 diff against the
recorded remote state vector and the base64 local state vector, with no
msg_id, is emitted to n exactly when the recorded remote state vector
differs from the local one or the 10 percent draw for n came up true; and
every message emitted to n is that message. -/
theorem c4_gossip_emission {SV : Type} [DecidableEq SV] (node_id : String)
    (neighborhood : List String) (known : String → SV)
    (encode_diff_v1 : SV → List Nat) (state_vector : SV)
    (encode_v1 : SV → List Nat) (draw : String → Bool) (n : String)
    (hn : n ∈ neighborhood) :
    (gossipMsgTo node_id known encode_diff_v1 state_vector encode_v1 n ∈
        sendGossip node_id neighborhood known encode_diff_v1 state_vector
          encode_v1 draw ↔
      (known n ≠ state_vector ∨ draw n = true)) ∧
    (∀ m ∈ sendGossip node_id neighborhood known encode_diff_v1 state_vector
        encode_v1 draw, m.dst = n →
      m = gossipMsgTo node_id known encode_diff_v1 state_vector encode_v1 n) ∧
    (gossipMsgTo node_id known encode_diff_v1 state_vector encode_v1 n).body.id
      = none := by
  refine ⟨⟨?_, ?_⟩, ?_, rfl⟩
  · intro hmem
    simp only [sendGossip, List.mem_filterMap] at hmem
    obtain ⟨n', hn', hfn'⟩ := hmem
    by_cases hcond : known n' = state_vector ∧ draw n' = false
    · rw [if_pos hcond] at hfn'
      exact absurd hfn' (by simp)
    · rw [if_neg hcond] at hfn'
      have hdst : n' = n := by
        have h1 := Option.some.inj hfn'
        have h2 := congrArg Message.dst h1
        simpa [gossipMsgTo] using h2
      subst hdst
      by_cases h1 : known n' = state_vector
      · rcases hd : draw n' with _ | _
        · exact absurd ⟨h1, hd⟩ hcond
        · exact Or.inr rfl
      · exact Or.inl h1
  · intro hcond
    simp only [sendGossip, List.mem_filterMap]
    refine ⟨n, hn, ?_⟩
    rw [if_neg ?_]
    · rfl
    · rintro ⟨h1, h2⟩
      rcases hcond with h | h
      · exact h h1
      · rw [h] at h2
        exact Bool.true_eq_false.mp h2
  · intro m hm hdst
    simp only [sendGossip, List.mem_filterMap] at hm
    obtain ⟨n', hn', hfn'⟩ := hm
    by_cases hcond : known n' = state_vector ∧ draw n' = false
    · rw [if_pos hcond] at hfn'
      exact absurd hfn' (by simp)
    · rw [if_neg hcond] at hfn'
      have hne : n' = n := by
        have := congrArg Message.dst (Option.some.inj hfn')
        simp only at this
        rw [← hdst, ← this]
      subst hne
      rw [← Option.some.inj hfn']
      rfl

/-! ## Claim C5: base64 shape of gossip strings -/

theorem b64encodeNoPadChunks_length_mod (bs : List Nat) (h : bs.length % 3 ≠ 0) :
    (b64encodeNoPadChunks bs).length % 4 ≠ 0 := by
  induction bs using b64encodeNoPadChunks.induct with
  | case1 => simp at h
  | case2 b0 => simp [b64encodeNoPadChunks]
  | case3 b0 b1 => simp [b64encodeNoPadChunks]
  | case4 b0 b1 b2 rest ih =>
      have h' : rest.length % 3 ≠ 0 := by
        simp only [List.length_cons] at h
        omega
      have := ih h'
      simp only [b64encodeNoPadChunks, List.length_cons]
      omega

/-- A string is canonically padded URL-safe base64: every character is in the
URL-safe alphabet or is the padding character, and the length is a multiple
of four. -/
def isCanonicalPaddedB64 (s : String) : Prop :=
  (∀ c ∈ s.data, isUrlSafeB64Char c = true ∨ c = '=') ∧ s.data.length % 4 = 0

/-- Claim C5 as stated: strings produced by the gossip engine's encoder
contain no padding character, and the decoder accepts unpadded input. -/
def C5ClaimStatement : Prop :=
  (∀ bs : List Nat, (∀ b ∈ bs, b < 256) → '=' ∉ (b64encode bs).data) ∧
  (∀ bs : List Nat, (∀ b ∈ bs, b < 256) →
    (b64decodeCanonical (b64encodeNoPad bs)).isSome = true)

/-- Claim C5, counterexample: the engine is built from
GeneralPurposeConfig::new(), whose defaults pad on encode and require
canonical padding on decode.  Encoding the single byte 0 — the yrs encoding
of an empty state vector — yields the padded string AA== ; stripped of its
padding the decoder rejects it. -/
theorem c5_gossip_strings_are_padded : ¬ C5ClaimStatement := by
  intro h
  exact h.1 [0] (by decide) (by decide)

/-- Claim C5 (amended): every diff and state_vector string emitted in a
gossip message is URL-safe base64 WITH canonical padding: characters come
from the URL-safe alphabet plus the padding character, the length is a
multiple of four, a padding character appears exactly when the encoded byte
count is not a multiple of three, and the engine's own decoder recovers the
bytes; inbound gossip decoding REQUIRES canonical padding and rejects the
unpadded form whenever padding would be needed. -/
theorem c5_amended {SV : Type} [DecidableEq SV] (node_id : String)
    (neighborhood : List String) (known : String → SV)
    (encode_diff_v1 : SV → List Nat) (state_vector : SV)
    (encode_v1 : SV → List Nat) (draw : String → Bool)
    (hbytes : ∀ sv, (∀ b ∈ encode_diff_v1 sv, b < 256) ∧
      (∀ b ∈ encode_v1 sv, b < 256)) :
    (∀ m ∈ sendGossip node_id neighborhood known encode_diff_v1 state_vector
        encode_v1 draw,
      isCanonicalPaddedB64 m.body.payload.diff ∧
      isCanonicalPaddedB64 m.body.payload.state_vector ∧
      b64decodeCanonical m.body.payload.diff =
        some (encode_diff_v1 (known m.dst)) ∧
      b64decodeCanonical m.body.payload.state_vector =
        some (encode_v1 state_vector) ∧
      ('=' ∈ m.body.payload.diff.data ↔
        (encode_diff_v1 (known m.dst)).length % 3 ≠ 0)) ∧
    (∀ bs : List Nat, bs.length % 3 ≠ 0 →
      b64decodeCanonical (b64encodeNoPad bs) = none) := by
  constructor
  · intro m hm
    simp only [sendGossip, List.mem_filterMap] at hm
    obtain ⟨n', hn', hfn'⟩ := hm
    by_cases hcond : known n' = state_vector ∧ draw n' = false
    · rw [if_pos hcond] at hfn'
      exact absurd hfn' (by simp)
    · rw [if_neg hcond] at hfn'
      obtain rfl := Option.some.inj hfn'
      refine ⟨⟨?_, ?_⟩, ⟨?_, ?_⟩, ?_, ?_, ?_⟩
      · intro c hc
        exact b64encodeChunks_mem _ (hbytes (known n')).1 c hc
      · exact b64encodeChunks_length_mod _
      · intro c hc
        exact b64encodeChunks_mem _ (hbytes state_vector).2 c hc
      · exact b64encodeChunks_length_mod _
      · exact b64decode_encode _ (hbytes (known n')).1
      · exact b64decode_encode _ (hbytes state_vector).2
      · exact b64encodeChunks_pad_iff _ (hbytes (known n')).1
  · intro bs hmod
    exact b64decodeChunks_of_length_mod _ (b64encodeNoPadChunks_length_mod bs hmod)

/-! ## G-counter workload (src/src/bin/g-counter.rs)

The document view is the yrs map obtained by `doc.get_or_insert_map`, here an
association list with replacement on insert (yrs map semantics for the
operations the workload uses: get, insert, iter).  The Add handler keys the
map by `self.doc.client_id().to_string()` — the random u64 client id yrs
assigns to the document at `Doc::new()` — NOT by the node id.  Values are
i64 (Int); deltas are u64 (Nat).  The Read handler casts every entry to u64
with `try_into().expect(..)`, which panics on a negative entry; this is
modelled by returning none in that case. -/

/-- g-counter payload (`enum Payload` in g-counter.rs), gossip variant
included for completeness. -/
inductive GCounterPayload where
  | add (delta : Nat)
  | addOk
  | read
  | readOk (value : Nat)
  | gossip (diff : String) (state_vector : String)
  deriving Repr, DecidableEq

/-- The wrapping Rust cast `d as i64` for a u64 operand d: values below 2^63
map to themselves, values in [2^63, 2^64) to negative numbers.  `as` casts
wrap in every build profile. -/
def u64AsI64 (d : Nat) : Int :=
  if d % 2 ^ 64 < 2 ^ 63 then ((d % 2 ^ 64 : Nat) : Int)
  else ((d % 2 ^ 64 : Nat) : Int) - 2 ^ 64

/-- Wrap an unbounded integer into i64 range, the release-profile semantics
of i64 overflow (a debug build would panic instead; the theorems below only
assert behavior in the range where the two profiles agree). -/
def i64wrap (z : Int) : Int :=
  if z % 2 ^ 64 < 2 ^ 63 then z % 2 ^ 64 else z % 2 ^ 64 - 2 ^ 64

/-- Association-list lookup, modelling yrs `Map::get`. -/
def mapLookup {β : Type} (m : List (String × β)) (k : String) : Option β :=
  m.lookup k

/-- Association-list insert with replacement, modelling yrs `Map::insert`. -/
def mapInsert {β : Type} (m : List (String × β)) (k : String) (v : β) :
    List (String × β) :=
  (k, v) :: m.filter fun p => !(p.1 == k)

/-- The g-counter node state: node id from init, the yrs document's random
client id, and the counter map view of the document. -/
structure GCounterNode where
  node_id : String
  client_id : Nat
  counter : List (String × Int)
  deriving Repr, DecidableEq

/-- The Payload::Add branch of GCounterNode::step (g-counter.rs lines 52-67):
read the entry at key client_id.to_string() (0 when absent), compute
`old_val + delta as i64` — the cast wraps, and the i64 addition is modelled
with release-profile wrapping — store back, reply AddOk. -/
def gCounterAdd (node : GCounterNode) (delta : Nat) :
    GCounterNode × GCounterPayload :=
  let key := toString node.client_id
  let old_val := (mapLookup node.counter key).getD 0
  ({ node with
      counter := mapInsert node.counter key (i64wrap (old_val + u64AsI64 delta)) },
   GCounterPayload.addOk)

/-- The Payload::Read branch of GCounterNode::step (g-counter.rs lines
69-83): convert every entry to u64 with `try_into().expect(..)` (panic —
none — on a negative entry) and sum as u64, reducing modulo 2^64 as the
release profile does on overflow (a debug build would panic there), reply
ReadOk. -/
def gCounterRead (node : GCounterNode) : Option GCounterPayload :=
  if node.counter.all fun p => 0 ≤ p.2 then
    some (GCounterPayload.readOk
      (((node.counter.map fun p => p.2.toNat).sum) % 2 ^ 64))
  else none

theorem mapLookup_mapInsert_self {β : Type} (m : List (String × β)) (k : String) (v : β) :
    mapLookup (mapInsert m k v) k = some v := by
  simp [mapLookup, mapInsert, List.lookup]

theorem lookup_filter_ne {β : Type} (m : List (String × β)) (k k' : String) (hne : k' ≠ k) :
    List.lookup k' (m.filter fun p => !(p.1 == k)) = List.lookup k' m := by
  induction m with
  | nil => rfl
  | cons p t ih =>
      rcases p with ⟨a, b⟩
      by_cases hak : a = k
      · subst hak
        have h1 : (!(a == a)) = false := by simp
        have h2 : (k' == a) = false := by
          simp only [beq_eq_false_iff_ne, ne_eq]
          exact hne
        simp only [List.filter_cons, h1, if_neg Bool.false_ne_true]
        rw [ih]
        simp [List.lookup, h2]
      · have h1 : (!(a == k)) = true := by simp [hak]
        simp only [List.filter_cons, h1, if_pos rfl]
        by_cases hka : k' = a
        · subst hka
          simp [List.lookup]
        · have h2 : (k' == a) = false := by
            simp only [beq_eq_false_iff_ne, ne_eq]
            exact hka
          simp only [List.lookup, h2]
          exact ih

theorem mapLookup_mapInsert_ne {β : Type} (m : List (String × β)) (k k' : String)
    (v : β) (hne : k' ≠ k) :
    mapLookup (mapInsert m k v) k' = mapLookup m k' := by
  have h2 : (k' == k) = false := by
    simp only [beq_eq_false_iff_ne, ne_eq]
    exact hne
  simp only [mapLookup, mapInsert, List.lookup, h2]
  exact lookup_filter_ne m k k' hne

/-- Claim C8 as stated: Add increments the entry of the counter map keyed by
the node's NodeId (absent entry read as 0) and replies add_ok. -/
def C8ClaimStatement : Prop :=
  ∀ (node : GCounterNode) (delta : Nat),
    mapLookup (gCounterAdd node delta).1.counter node.node_id =
      some ((mapLookup node.counter node.node_id).getD 0 + (delta : Int)) ∧
    (gCounterAdd node delta).2 = GCounterPayload.addOk

/-- Claim C8, counterexample: a node with node id n1 and yrs client id 42
handling add with delta 5 stores the increment under the key 42, so the
entry keyed by the NodeId n1 stays absent: the map is keyed by the
document's client id, not by the NodeId. -/
theorem c8_add_keys_by_client_id : ¬ C8ClaimStatement := by
  intro h
  have hh := (h { node_id := "n1", client_id := 42, counter := [] } 5).1
  have : mapLookup (gCounterAdd
      { node_id := "n1", client_id := 42, counter := [] } 5).1.counter "n1"
      = none := by decide
  rw [this] at hh
  exact Option.noConfusion hh

theorem u64AsI64_of_lt (d : Nat) (h : d < 2 ^ 63) : u64AsI64 d = (d : Int) := by
  have hd : d % 2 ^ 64 = d := Nat.mod_eq_of_lt (by omega)
  simp only [u64AsI64, hd, if_pos h]

theorem u64AsI64_neg_of_ge (d : Nat) (h1 : 2 ^ 63 ≤ d) (h2 : d < 2 ^ 64) :
    u64AsI64 d < 0 := by
  have hd : d % 2 ^ 64 = d := Nat.mod_eq_of_lt h2
  have hnot : ¬ d % 2 ^ 64 < 2 ^ 63 := by omega
  simp only [u64AsI64, hd, if_neg hnot]
  have hcast : (d : Int) < 2 ^ 64 := by exact_mod_cast h2
  omega

theorem i64wrap_eq_of_range (z : Int) (h0 : 0 ≤ z) (h1 : z < 2 ^ 63) :
    i64wrap z = z := by
  have hz : z % 2 ^ 64 = z := Int.emod_eq_of_lt h0 (by omega)
  simp only [i64wrap, hz, if_pos h1]

/-- Claim C8 (amended): Add stores, under the key given by the document's
client id rendered as a string (yrs assigns this random u64 at Doc::new; it
is not the NodeId), the old entry (0 when absent) plus the WRAPPING cast
`delta as i64` — so a delta below 2^63 whose i64 sum stays in range
increments the entry by exactly delta, while a delta in [2^63, 2^64) adds a
negative value — leaves every other key unchanged, and replies add_ok; Read
replies read_ok whose u64 value is the sum of all entries reduced modulo
2^64, equal to the plain sum whenever it fits in u64 (the source panics on a
negative entry). -/
theorem c8_amended (node : GCounterNode) (delta : Nat)
    (hdelta : delta < 2 ^ 63)
    (hold : 0 ≤ (mapLookup node.counter (toString node.client_id)).getD 0)
    (hsum : (mapLookup node.counter (toString node.client_id)).getD 0 +
      (delta : Int) < 2 ^ 63)
    (hpos : ∀ p ∈ node.counter, 0 ≤ p.2)
    (hsumAll : ((node.counter.map fun p => p.2.toNat).sum) < 2 ^ 64) :
    mapLookup (gCounterAdd node delta).1.counter (toString node.client_id) =
      some ((mapLookup node.counter (toString node.client_id)).getD 0 +
        (delta : Int)) ∧
    (∀ k, k ≠ toString node.client_id →
      mapLookup (gCounterAdd node delta).1.counter k = mapLookup node.counter k) ∧
    (gCounterAdd node delta).2 = GCounterPayload.addOk ∧
    gCounterRead node =
      some (GCounterPayload.readOk ((node.counter.map fun p => p.2.toNat).sum)) ∧
    (∀ d : Nat, 2 ^ 63 ≤ d → d < 2 ^ 64 → u64AsI64 d < 0) := by
  have hval : i64wrap ((mapLookup node.counter (toString node.client_id)).getD 0 +
      u64AsI64 delta) =
      (mapLookup node.counter (toString node.client_id)).getD 0 + (delta : Int) := by
    rw [u64AsI64_of_lt delta hdelta]
    exact i64wrap_eq_of_range _
      (add_nonneg hold (Int.natCast_nonneg delta)) hsum
  refine ⟨?_, ?_, rfl, ?_, u64AsI64_neg_of_ge⟩
  · have h1 := mapLookup_mapInsert_self node.counter (toString node.client_id)
      (i64wrap ((mapLookup node.counter (toString node.client_id)).getD 0 +
        u64AsI64 delta))
    exact h1.trans (congrArg some hval)
  · intro k hk
    exact mapLookup_mapInsert_ne _ _ _ _ hk
  · have hall : (node.counter.all fun p => decide (0 ≤ p.2)) = true := by
      rw [List.all_eq_true]
      intro p hp
      simpa using hpos p hp
    have hmod : ((node.counter.map fun p => p.2.toNat).sum) % 2 ^ 64 =
        (node.counter.map fun p => p.2.toNat).sum := Nat.mod_eq_of_lt hsumAll
    have hread : gCounterRead node = some (GCounterPayload.readOk
        (((node.counter.map fun p => p.2.toNat).sum) % 2 ^ 64)) := by
      simp [gCounterRead, hall]
    rw [hread, hmod]

/-! ## Kafka-log workload (src/src/bin/kafka/main.rs and src/src/bin/kafka.rs)

The two kafka variants share the same handle_send / handle_poll bodies.  The
logs document view (yrs map key to array) is an association list from key to
list; messages are a type parameter α standing for arbitrary JSON values.
handle_send: fetch `logs[key]` (fresh empty array when absent or not an
array), push the message, commit, and reply with offset = len - 1 read from
the same transaction.  handle_poll: for each requested (key, from), keys
absent from logs contribute no entry; otherwise the entry is the enumerated
list with the first `from` pairs skipped. -/

/-- KafkaNode::handle_send (kafka/main.rs lines 262-289, kafka.rs 323-350):
returns the updated logs and the offset carried by the send_ok reply. -/
def handle_send {α : Type} (logs : List (String × List α)) (key : String)
    (msg : α) : List (String × List α) × Nat :=
  let list := (mapLookup logs key).getD []
  let list' := list ++ [msg]
  (mapInsert logs key list', list'.length - 1)

/-- Repeated sends of msgs on one key through one node, collecting the
offsets that the send_ok replies carry, in order. -/
def processSends {α : Type} (logs : List (String × List α)) (key : String) :
    List α → List (String × List α) × List Nat
  | [] => (logs, [])
  | m :: ms =>
      let r := handle_send logs key m
      let rest := processSends r.1 key ms
      (rest.1, r.2 :: rest.2)

/-- KafkaNode::handle_poll (kafka/main.rs lines 291-315, kafka.rs 352-376):
for each requested (key, from) pair, keys missing from the logs are filtered
out; present keys map to their enumerated log with the first `from` pairs
skipped. -/
def handle_poll {α : Type} (logs : List (String × List α))
    (req : List (String × Nat)) : List (String × List (Nat × α)) :=
  req.filterMap fun p =>
    (mapLookup logs p.1).map fun l => (p.1, l.enum.drop p.2)

theorem processSends_offsets {α : Type} (key : String) (msgs : List α)
    (logs : List (String × List α)) :
    (processSends logs key msgs).2 =
      (List.range msgs.length).map
        (· + ((mapLookup logs key).getD []).length) := by
  induction msgs generalizing logs with
  | nil => simp [processSends]
  | cons m ms ih =>
      simp only [processSends]
      have hoff : (handle_send logs key m).2 =
          ((mapLookup logs key).getD []).length := by
        simp [handle_send]
      have hlk : mapLookup (handle_send logs key m).1 key =
          some ((mapLookup logs key).getD [] ++ [m]) :=
        mapLookup_mapInsert_self _ _ _
      rw [ih ((handle_send logs key m).1), hoff, hlk]
      simp only [Option.getD_some, List.length_append, List.length_singleton,
        List.length_cons, List.range_succ_eq_map, List.map_cons, List.map_map]
      refine List.cons_eq_cons.mpr ⟨by omega, ?_⟩
      apply List.map_congr_left
      intro i _
      simp only [Function.comp_apply, List.length_nil]
      omega

/-- Claim C7: handle_send appends msg to logs[key] (creating the array when
absent) and replies send_ok with offset = len(logs[key]) - 1 taken in the
same transaction as the append; for a sequence of sends on a single key
through a single node that starts with that key's log empty and receives no
gossip, the offsets returned are 0, 1, 2, ... — dense from 0 and strictly
increasing. -/
theorem c7_send_offsets {α : Type} (logs : List (String × List α))
    (key : String) (msgs : List α)
    (hstart : (mapLookup logs key).getD [] = []) :
    (∀ (lgs : List (String × List α)) (m : α),
      mapLookup (handle_send lgs key m).1 key =
        some ((mapLookup lgs key).getD [] ++ [m]) ∧
      (handle_send lgs key m).2 =
        ((mapLookup (handle_send lgs key m).1 key).getD []).length - 1) ∧
    (processSends logs key msgs).2 = List.range msgs.length ∧
    ((processSends logs key msgs).2).Pairwise (· < ·) := by
  have hrange : (processSends logs key msgs).2 = List.range msgs.length := by
    rw [processSends_offsets key msgs logs, hstart]
    simp
  refine ⟨?_, hrange, ?_⟩
  · intro lgs m
    refine ⟨mapLookup_mapInsert_self _ _ _, ?_⟩
    have h1 : mapLookup (handle_send lgs key m).1 key =
        some ((mapLookup lgs key).getD [] ++ [m]) :=
      mapLookup_mapInsert_self _ _ _
    rw [h1]
    simp [handle_send]
  · rw [hrange]
    exact List.pairwise_lt_range _

theorem handle_poll_keys {α : Type} (logs : List (String × List α))
    (req : List (String × Nat)) (k : String) (e : List (Nat × α))
    (hmem : (k, e) ∈ handle_poll logs req) : k ∈ req.map Prod.fst := by
  simp only [handle_poll, List.mem_filterMap] at hmem
  obtain ⟨⟨k', f⟩, hreq, hmap⟩ := hmem
  rcases hlk : mapLookup logs k' with _ | l
  · rw [hlk] at hmap
    exact absurd hmap (by simp)
  · rw [hlk] at hmap
    have := Option.some.inj hmap
    have hk : k' = k := congrArg Prod.fst this
    subst hk
    exact List.mem_map.mpr ⟨(k', f), hreq, rfl⟩

theorem lookup_eq_none_of_not_mem {β : Type} (res : List (String × β)) (k : String)
    (h : ∀ e, (k, e) ∉ res) : res.lookup k = none := by
  induction res with
  | nil => rfl
  | cons p t ih =>
      rcases p with ⟨a, b⟩
      have hka : (k == a) = false := by
        rw [beq_eq_false_iff_ne]
        intro hcontra
        exact h b (by simp [hcontra])
      simp only [List.lookup, hka]
      exact ih fun e he => h e (List.mem_cons_of_mem _ he)

theorem handle_poll_lookup {α : Type} (logs : List (String × List α))
    (req : List (String × Nat)) (hnd : (req.map Prod.fst).Nodup)
    (k : String) (f : Nat) (hreq : (k, f) ∈ req) :
    (handle_poll logs req).lookup k =
      (mapLookup logs k).map fun l => l.enum.drop f := by
  induction req with
  | nil => simp at hreq
  | cons p rest ih =>
      rcases p with ⟨k', f'⟩
      have hnd' : (rest.map Prod.fst).Nodup := (List.nodup_cons.mp hnd).2
      have hknotin : k' ∉ rest.map Prod.fst := (List.nodup_cons.mp hnd).1
      rcases List.mem_cons.mp hreq with heq | hmem
      · obtain ⟨hk, hf⟩ : k = k' ∧ f = f' := by
          have h1 := congrArg Prod.fst heq
          have h2 := congrArg Prod.snd heq
          exact ⟨h1, h2⟩
        subst hk
        subst hf
        rcases hlk : mapLookup logs k with _ | l
        · simp only [handle_poll, List.filterMap_cons, hlk, Option.map_none']
          refine lookup_eq_none_of_not_mem _ _ fun e he => ?_
          exact hknotin (handle_poll_keys logs rest k e he)
        · simp only [handle_poll, List.filterMap_cons, hlk, Option.map_some']
          simp [List.lookup]
      · have hkne : k ≠ k' := by
          intro hcontra
          subst hcontra
          exact hknotin (List.mem_map.mpr ⟨(k, f), hmem, rfl⟩)
        rcases hlk : mapLookup logs k' with _ | l
        · simp only [handle_poll, List.filterMap_cons, hlk, Option.map_none']
          exact ih hnd' hmem
        · simp only [handle_poll, List.filterMap_cons, hlk, Option.map_some']
          have hkk : (k == k') = false := by
            rw [beq_eq_false_iff_ne]
            exact hkne
          simp only [List.lookup, hkk]
          exact ih hnd' hmem

theorem enum_drop_mem_iff {α : Type} (l : List α) (f : Nat) (pr : Nat × α) :
    pr ∈ l.enum.drop f ↔
      ∃ h : pr.1 < l.length, f ≤ pr.1 ∧ pr.2 = l.get ⟨pr.1, h⟩ := by
  constructor
  · intro hmem
    obtain ⟨i, hi, hget⟩ := List.mem_iff_getElem.mp hmem
    have hlen : (l.enum.drop f).length = l.enum.length - f := List.length_drop f l.enum
    have hlen2 : l.enum.length = l.length := List.enum_length
    have hif : f + i < l.length := by omega
    have : (l.enum.drop f)[i] = l.enum[f + i] := List.getElem_drop l.enum
    rw [this] at hget
    have henum : l.enum[f + i] = (f + i, l[f + i]) := List.getElem_enum l (f + i) (by simpa using hif)
    rw [henum] at hget
    subst hget
    exact ⟨hif, by omega, rfl⟩
  · rintro ⟨h, hf, hval⟩
    rcases pr with ⟨j, v⟩
    simp only at h hf hval
    subst hval
    have hlen : (l.enum.drop f).length = l.enum.length - f := List.length_drop f l.enum
    have hlen2 : l.enum.length = l.length := List.enum_length
    have hb1 : j - f < (l.enum.drop f).length := by omega
    have hb2 : f + (j - f) < l.enum.length := by omega
    have hb3 : j < l.enum.length := by omega
    refine List.mem_iff_getElem.mpr ⟨j - f, hb1, ?_⟩
    have hstep : (l.enum.drop f)[j - f] = l.enum[f + (j - f)] :=
      List.getElem_drop l.enum
    rw [hstep]
    have hj : f + (j - f) = j := by omega
    simp only [hj]
    have henum : l.enum[j] = (j, l[j]) := List.getElem_enum l j hb3
    rw [henum]
    simp [List.get_eq_getElem]

theorem enum_drop_pairwise {α : Type} (l : List α) (f : Nat) :
    (l.enum.drop f).Pairwise fun a b => a.1 < b.1 := by
  have henum : (l.enum).Pairwise fun a b => a.1 < b.1 := by
    have h1 : (l.enum.map Prod.fst).Pairwise (· < ·) := by
      rw [List.enum_map_fst]
      exact List.pairwise_lt_range _
    exact (List.pairwise_map.mp h1)
  exact henum.sublist (List.drop_sublist f l.enum)

/-- Claim C10: for every poll request (with distinct requested keys, as a
JSON map guarantees): a requested key absent from the logs map contributes
no entry to poll_ok.msgs; a requested key present in the logs whose
requested starting offset is at least the log's length maps to the empty
list; and every returned entry lists exactly the pairs (i, logs[key][i]) for
i at least the requested offset, in index order. -/
theorem c10_poll_entries {α : Type} (logs : List (String × List α))
    (req : List (String × Nat)) (hnd : (req.map Prod.fst).Nodup) :
    (∀ k f, (k, f) ∈ req → mapLookup logs k = none →
      (handle_poll logs req).lookup k = none) ∧
    (∀ k f l, (k, f) ∈ req → mapLookup logs k = some l →
      (handle_poll logs req).lookup k = some (l.enum.drop f) ∧
      (l.length ≤ f → (handle_poll logs req).lookup k = some []) ∧
      (∀ pr ∈ l.enum.drop f,
        ∃ h : pr.1 < l.length, f ≤ pr.1 ∧ pr.2 = l.get ⟨pr.1, h⟩) ∧
      (∀ (j : Nat) (hj : j < l.length), f ≤ j →
        (j, l.get ⟨j, hj⟩) ∈ l.enum.drop f) ∧
      ((l.enum.drop f).Pairwise fun a b => a.1 < b.1)) := by
  constructor
  · intro k f hreq hlk
    rw [handle_poll_lookup logs req hnd k f hreq, hlk]
    rfl
  · intro k f l hreq hlk
    have hlook := handle_poll_lookup logs req hnd k f hreq
    rw [hlk] at hlook
    simp only [Option.map_some'] at hlook
    refine ⟨hlook, ?_, ?_, ?_, enum_drop_pairwise l f⟩
    · intro hle
      rw [hlook]
      have : l.enum.drop f = [] := by
        apply List.drop_eq_nil_of_le
        rw [List.enum_length]
        exact hle
      rw [this]
    · intro pr hpr
      exact (enum_drop_mem_iff l f pr).mp hpr
    · intro j hj hfj
      exact (enum_drop_mem_iff l f (j, l.get ⟨j, hj⟩)).mpr ⟨hj, hfj, rfl⟩

/-! ## Pending-RPC table (src/src/rpc.rs, src/src/rpc/lin_kv.rs, src/src/bin/kafka.rs)

`CallbackInfo::matches` (rpc.rs lines 51-53, kafka.rs lines 66-68): a reply
matches an entry iff `sent_msgs.is_matching_reply(msg)` — its in_reply_to is
one of the entry's outbound msg_ids — and the entry's recorded original dst
equals the reply's dst.  The continuation is abstracted to its observable
result (a CallbackStatus or an error).

`LinKv::handle_reply` (lin_kv.rs lines 96-111) takes
`self.callbacks.borrow_mut()` into the local `borrow`, finds the matching
entry, runs the callback, and on Finished calls
`self.callbacks.borrow_mut()` AGAIN to remove the entry.  `RefMut` has a
Drop impl, so `borrow` lives to the end of the function body (non-lexical
lifetimes never shorten values with destructors); the second borrow_mut
therefore panics with BorrowMutError at run time.  The borrow discipline is
made explicit below with a flag that records that the first guard is still
held. -/

/-- `enum CallbackStatus` from rpc.rs / kafka.rs. -/
inductive CallbackStatus where
  | moreWork
  | finished
  deriving Repr, DecidableEq

/-- One pending-RPC entry: dst of the original incoming message kept for
correlation, the msg_ids of the outbound MessageSet, and the continuation. -/
structure CallbackInfo (P : Type) where
  unhandled_dst : String
  sent_ids : List Nat
  callback : Message P → Except String CallbackStatus

/-- `MessageSet::is_matching_reply` (message.rs lines 379-384). -/
def is_matching_reply {P : Type} (sent_ids : List Nat) (msg : Message P) : Bool :=
  match msg.body.in_reply_to with
  | some id => sent_ids.contains id
  | none => false

/-- `CallbackInfo::matches`. -/
def CallbackInfo.matches {P : Type} (ci : CallbackInfo P) (msg : Message P) : Bool :=
  is_matching_reply ci.sent_ids msg && (ci.unhandled_dst == msg.dst)

/-- `.iter_mut().enumerate().find(|(_, info)| info.matches(event))`. -/
def findCallback {P : Type} (callbacks : List (CallbackInfo P))
    (msg : Message P) : Option (Nat × CallbackInfo P) :=
  match callbacks with
  | [] => none
  | ci :: rest =>
      if ci.matches msg then some (0, ci)
      else (findCallback rest msg).map fun p => (p.1 + 1, p.2)

/-- Outcome of running a handler whose body can panic: ok, a propagated
error, or a panic (here: RefCell BorrowMutError). -/
inductive RunOutcome (A : Type) where
  | ok (a : A)
  | err (e : String)
  | panic (msg : String)
  deriving Repr

/-- `LinKv::handle_reply`: find the matching entry under the outer
borrow_mut guard, call its continuation, then on Finished attempt the second
`self.callbacks.borrow_mut()` — which panics because the outer RefMut guard
is still held until the end of the function. -/
def linKvHandleReply {P : Type} (callbacks : List (CallbackInfo P))
    (event : Message P) : RunOutcome (List (CallbackInfo P)) :=
  let outerGuardHeld := true
  match findCallback callbacks event with
  | none => RunOutcome.err "NoCallback"
  | some (idx, ci) =>
    match ci.callback event with
    | .error e => RunOutcome.err e
    | .ok CallbackStatus.finished =>
        if outerGuardHeld then RunOutcome.panic "RefCell already mutably borrowed"
        else RunOutcome.ok (callbacks.eraseIdx idx)
    | .ok CallbackStatus.moreWork => RunOutcome.ok callbacks

/-- `KafkaNode::handle_reply` (kafka.rs lines 214-244): find the matching
entry, run its callback; MoreWork keeps the table unchanged, Finished runs
`self.callbacks.retain(|c| !c.matches(&input))`. -/
def kafkaHandleReply {P : Type} (callbacks : List (CallbackInfo P))
    (input : Message P) : Except String (List (CallbackInfo P)) :=
  match findCallback callbacks input with
  | none => Except.error "Reply to message we do not have"
  | some (_, ci) =>
    match ci.callback input with
    | .error e => Except.error e
    | .ok CallbackStatus.moreWork => Except.ok callbacks
    | .ok CallbackStatus.finished =>
        Except.ok (callbacks.filter fun c => !(c.matches input))

/-- Minimal model of `enum LinKvPayload` (lin_kv.rs lines 44-56). -/
inductive LinKvPayload where
  | read (key : String)
  | readOk (value : Nat)
  | write (key : String) (value : Nat)
  | writeOk
  | cas (key : String) (old : Nat) (new : Nat)
  | casOk
  deriving Repr, DecidableEq

/-- The continuation LinKv::read installs (lin_kv.rs lines 125-136): on a
ReadOk reply it runs the user callback and returns Finished; any other
payload is a WrongEvent error.  The user callback's side effects are not
observed here. -/
def readProcessCallback : Message LinKvPayload → Except String CallbackStatus :=
  fun msg =>
    match msg.body.payload with
    | LinKvPayload.readOk _ => Except.ok CallbackStatus.finished
    | _ => Except.error "WrongEvent"

/-- Claim C6: the claim (matching reply runs the callback; Finished removes
the entry, MoreWork retains it) describes the code's intent, and
KafkaNode::handle_reply implements it, but LinKv::handle_reply panics on
every Finished continuation: evaluated at a pending read entry (outbound
msg_id 5, original dst n1) and the matching read_ok reply, the handler hits
the second borrow_mut while the first RefMut is still live and panics with
BorrowMutError instead of removing the entry. -/
theorem c6_linkv_finished_panics :
    linKvHandleReply
      [{ unhandled_dst := "n1", sent_ids := [5],
         callback := readProcessCallback }]
      { src := "lin-kv", dst := "n1",
        body := { id := some 0, in_reply_to := some 5,
                  payload := LinKvPayload.readOk 42 } } =
    RunOutcome.panic "RefCell already mutably borrowed" := by
  rfl

theorem findCallback_matches {P : Type} (callbacks : List (CallbackInfo P))
    (msg : Message P) (idx : Nat) (ci : CallbackInfo P)
    (hf : findCallback callbacks msg = some (idx, ci)) :
    ci.matches msg = true := by
  induction callbacks generalizing idx with
  | nil => simp [findCallback] at hf
  | cons c0 rest ih =>
      by_cases hc : c0.matches msg
      · simp only [findCallback, if_pos hc, Option.some.injEq, Prod.mk.injEq] at hf
        obtain ⟨-, rfl⟩ := hf
        exact hc
      · rcases hfr : findCallback rest msg with _ | ⟨i', ci'⟩
        · simp [findCallback, if_neg hc, hfr] at hf
        · have hf2 : (some (i' + 1, ci') : Option (Nat × CallbackInfo P)) = some (idx, ci) := by
            rw [← hf]
            simp [findCallback, if_neg hc, hfr]
          have hph := Option.some.inj hf2
          have hci : ci = ci' := ((Prod.ext_iff.mp hph).2).symm
          subst hci
          exact ih i' hfr

theorem kafkaHandleReply_spec {P : Type} (callbacks : List (CallbackInfo P))
    (input : Message P) (idx : Nat) (ci : CallbackInfo P)
    (hfind : findCallback callbacks input = some (idx, ci)) :
    (ci.callback input = Except.ok CallbackStatus.moreWork →
      kafkaHandleReply callbacks input = Except.ok callbacks) ∧
    (ci.callback input = Except.ok CallbackStatus.finished →
      kafkaHandleReply callbacks input =
        Except.ok (callbacks.filter fun c => !(c.matches input)) ∧
      ∀ res, kafkaHandleReply callbacks input = Except.ok res → ci ∉ res) := by
  have hmatch : ci.matches input = true := findCallback_matches callbacks input idx ci hfind
  constructor
  · intro hcb
    simp [kafkaHandleReply, hfind, hcb]
  · intro hcb
    have hres : kafkaHandleReply callbacks input =
        Except.ok (callbacks.filter fun c => !(c.matches input)) := by
      simp [kafkaHandleReply, hfind, hcb]
    refine ⟨hres, ?_⟩
    intro res hok hmem
    rw [hres] at hok
    obtain rfl := Except.ok.inj hok
    have := List.of_mem_filter hmem
    rw [hmatch] at this
    exact Bool.noConfusion this

/-! ## Anti-entropy gossip protocol model (claim C9)

The replicated document is the external yrs CRDT, out of the spec's scope;
following the spec's interface (section 3), a document is modelled from the
spec as the set of operations it contains: `state_vector()` summarizes the
operations known (here: the set itself), `encode_diff(remote_sv)` is the set
of operations not covered by the remote summary, and `apply_update` is set
union — this satisfies all four document invariants the spec lists
(idempotence, commutativity, empty self-diff, completeness of applied
diffs).

The protocol steps are those of the source: an `op` event is a
broadcast/add/send handled at node n (inserting an operation into its
document); a `deliver src dst` event is the receipt by dst of a gossip
message from src, carrying the diff src computed against its recorded
`known[dst]` state vector and src's state vector, whereupon dst merges the
diff and records src's state vector in its own `known[src]`
(broadcast.rs lines 93-107, g-counter.rs lines 86-100, and the send branch
embedded above); `idle` is any other scheduler activity.  Deliveries are
modelled synchronously: the diff carried is the one src would compute at
delivery time. -/

/-- Events of a gossip execution. -/
inductive GEvent (ι : Type) where
  | op (n : ι) (x : Nat)
  | deliver (src dst : ι)
  | idle

/-- Global protocol state: each node's document (set of operations) and each
node's `known` table of last-observed peer state vectors. -/
structure GState (ι : Type) where
  doc : ι → Finset Nat
  known : ι → ι → Finset Nat

/-- Initial state: empty documents, default (empty) state vectors — as
from_init builds `known` with `Default::default()` for every node. -/
def gInit (ι : Type) : GState ι :=
  { doc := fun _ => ∅, known := fun _ _ => ∅ }

/-- One protocol step. -/
def gStep {ι : Type} [DecidableEq ι] (s : GState ι) : GEvent ι → GState ι
  | GEvent.op n x =>
      { s with doc := Function.update s.doc n (insert x (s.doc n)) }
  | GEvent.deliver src dst =>
      { doc := Function.update s.doc dst
          (s.doc dst ∪ (s.doc src \ s.known src dst)),
        known := fun a b =>
          if a = dst ∧ b = src then s.doc src else s.known a b }
  | GEvent.idle => s

/-- The state after the first t events of the execution e. -/
def gRun {ι : Type} [DecidableEq ι] (e : Nat → GEvent ι) : Nat → GState ι
  | 0 => gInit ι
  | t + 1 => gStep (gRun e t) (e t)

/-- All operations that the execution ever produces, at any node. -/
def allOpsSet {ι : Type} (e : Nat → GEvent ι) : Set Nat :=
  { x | ∃ t n, e t = GEvent.op n x }

theorem gStep_doc_mono {ι : Type} [DecidableEq ι] (s : GState ι)
    (ev : GEvent ι) (n : ι) : s.doc n ⊆ (gStep s ev).doc n := by
  cases ev with
  | op m x =>
      by_cases hnm : n = m
      · subst hnm
        simp [gStep, Function.update_same, Finset.subset_insert]
      · simp [gStep, Function.update_noteq hnm]
  | deliver src dst =>
      by_cases hnd : n = dst
      · subst hnd
        simp only [gStep, Function.update_same]
        exact Finset.subset_union_left
      · simp [gStep, Function.update_noteq hnd]
  | idle => simp [gStep]

theorem gRun_doc_mono {ι : Type} [DecidableEq ι] (e : Nat → GEvent ι)
    (n : ι) {t t' : Nat} (h : t ≤ t') :
    (gRun e t).doc n ⊆ (gRun e t').doc n := by
  induction t' with
  | zero =>
      obtain rfl : t = 0 := Nat.le_zero.mp h
      exact subset_rfl
  | succ t' ih =>
      rcases eq_or_lt_of_le h with rfl | hlt
      · exact subset_rfl
      · exact (ih (Nat.lt_succ_iff.mp hlt)).trans
          (gStep_doc_mono (gRun e t') (e t') n)

theorem gRun_known_subset_doc {ι : Type} [DecidableEq ι] (e : Nat → GEvent ι)
    (t : Nat) (a b : ι) : (gRun e t).known a b ⊆ (gRun e t).doc b := by
  induction t generalizing a b with
  | zero => simp [gRun, gInit]
  | succ t ih =>
      show (gStep (gRun e t) (e t)).known a b ⊆ (gStep (gRun e t) (e t)).doc b
      cases hev : e t with
      | op n x =>
          exact (ih a b).trans (gStep_doc_mono (gRun e t) (GEvent.op n x) b)
      | deliver src dst =>
          simp only [gStep]
          by_cases hab : a = dst ∧ b = src
          · rw [if_pos hab]
            obtain ⟨rfl, rfl⟩ := hab
            exact gStep_doc_mono (gRun e t) (GEvent.deliver b a) b
          · rw [if_neg hab]
            exact (ih a b).trans
              (gStep_doc_mono (gRun e t) (GEvent.deliver src dst) b)
      | idle => exact ih a b

theorem gRun_deliver_effect {ι : Type} [DecidableEq ι] (e : Nat → GEvent ι)
    (t : Nat) (src dst : ι) (hev : e t = GEvent.deliver src dst) :
    (gRun e t).doc src ⊆ (gRun e (t + 1)).doc dst := by
  intro x hx
  show x ∈ (gStep (gRun e t) (e t)).doc dst
  rw [hev]
  simp only [gStep, Function.update_same, Finset.mem_union, Finset.mem_sdiff]
  by_cases hk : x ∈ (gRun e t).known src dst
  · exact Or.inl (gRun_known_subset_doc e t src dst hk)
  · exact Or.inr ⟨hx, hk⟩

theorem gRun_doc_subset_allOps {ι : Type} [DecidableEq ι] (e : Nat → GEvent ι)
    (t : Nat) (n : ι) : ((gRun e t).doc n : Set Nat) ⊆ allOpsSet e := by
  induction t generalizing n with
  | zero => simp [gRun, gInit]
  | succ t ih =>
      intro x hx
      have hx' : x ∈ (gStep (gRun e t) (e t)).doc n := hx
      cases hev : e t with
      | op m y =>
          rw [hev] at hx'
          simp only [gStep] at hx'
          by_cases hnm : n = m
          · subst hnm
            rw [Function.update_same] at hx'
            rcases Finset.mem_insert.mp hx' with rfl | hmem
            · exact ⟨t, _, hev⟩
            · exact ih n hmem
          · rw [Function.update_noteq hnm] at hx'
            exact ih n hx'
      | deliver src dst =>
          rw [hev] at hx'
          simp only [gStep] at hx'
          by_cases hnd : n = dst
          · subst hnd
            rw [Function.update_same] at hx'
            rcases Finset.mem_union.mp hx' with hmem | hmem
            · exact ih n hmem
            · exact ih src (Finset.mem_sdiff.mp hmem).1
          · rw [Function.update_noteq hnd] at hx'
            exact ih n hx'
      | idle =>
          rw [hev] at hx'
          exact ih n hx'

theorem gRun_op_inserted {ι : Type} [DecidableEq ι] (e : Nat → GEvent ι)
    (t : Nat) (n : ι) (x : Nat) (hev : e t = GEvent.op n x) :
    x ∈ (gRun e (t + 1)).doc n := by
  show x ∈ (gStep (gRun e t) (e t)).doc n
  rw [hev]
  simp [gStep, Function.update_same]

theorem gRun_propagation {ι : Type} [DecidableEq ι]
    (nbhd : ι → ι → Prop) (e : Nat → GEvent ι)
    (hfair : ∀ n m, nbhd n m → ∀ T, ∃ t, T ≤ t ∧ e t = GEvent.deliver n m)
    (n m : ι) (hreach : Relation.ReflTransGen nbhd n m) (T : Nat) :
    ∃ T2, T ≤ T2 ∧ (gRun e T).doc n ⊆ (gRun e T2).doc m := by
  induction hreach with
  | refl => exact ⟨T, le_rfl, subset_rfl⟩
  | tail hab hbm ih =>
      rename_i b m'
      obtain ⟨T1, hT1, hsub1⟩ := ih
      obtain ⟨t, ht, hev⟩ := hfair b m' hbm T1
      refine ⟨t + 1, by omega, ?_⟩
      exact hsub1.trans ((gRun_doc_mono e b ht).trans
        (gRun_deliver_effect e t b m' hev))

theorem gRun_eventually_mem {ι : Type} [DecidableEq ι]
    (nbhd : ι → ι → Prop) (e : Nat → GEvent ι)
    (hfair : ∀ n m, nbhd n m → ∀ T, ∃ t, T ≤ t ∧ e t = GEvent.deliver n m)
    (hconn : ∀ n m, Relation.ReflTransGen nbhd n m)
    (m : ι) (x : Nat) (hx : x ∈ allOpsSet e) :
    ∃ T, ∀ t, T ≤ t → x ∈ (gRun e t).doc m := by
  obtain ⟨t0, n0, hop⟩ := hx
  have hin : x ∈ (gRun e (t0 + 1)).doc n0 := gRun_op_inserted e t0 n0 x hop
  obtain ⟨T2, hT2, hsub⟩ :=
    gRun_propagation nbhd e hfair n0 m (hconn n0 m) (t0 + 1)
  exact ⟨T2, fun t ht => gRun_doc_mono e m ht (hsub hin)⟩

/-- The operation inserted by a single event, if any. -/
def opAt {ι : Type} : GEvent ι → Finset Nat
  | GEvent.op _ x => {x}
  | _ => ∅

/-- The finitely many operations of an execution whose op events all happen
before T0. -/
def opsFin {ι : Type} (e : Nat → GEvent ι) (T0 : Nat) : Finset Nat :=
  (Finset.range T0).biUnion fun t => opAt (e t)

theorem allOpsSet_eq_opsFin {ι : Type} (e : Nat → GEvent ι) (T0 : Nat)
    (hcease : ∀ t, T0 ≤ t → ∀ n x, e t ≠ GEvent.op n x) :
    allOpsSet e = (opsFin e T0 : Set Nat) := by
  ext x
  constructor
  · rintro ⟨t, n, hop⟩
    have hlt : t < T0 := by
      by_contra hge
      exact hcease t (by omega) n x hop
    simp only [opsFin, Finset.coe_biUnion, Set.mem_iUnion, Finset.mem_coe,
      Finset.mem_range]
    exact ⟨t, hlt, by simp [opAt, hop]⟩
  · intro hx
    simp only [opsFin, Finset.coe_biUnion, Set.mem_iUnion, Finset.mem_coe,
      Finset.mem_range] at hx
    obtain ⟨t, hlt, hmem⟩ := hx
    rcases hev : e t with ⟨n, y⟩ | ⟨src, dst⟩ | _
    · rw [hev] at hmem
      simp only [opAt, Finset.mem_singleton] at hmem
      subst hmem
      exact ⟨t, n, hev⟩
    · rw [hev] at hmem
      simp [opAt] at hmem
    · rw [hev] at hmem
      simp [opAt] at hmem

theorem eventually_subset_of_finset {ι : Type} [DecidableEq ι]
    (e : Nat → GEvent ι) (m : ι) (S : Finset Nat)
    (h : ∀ x ∈ S, ∃ T, ∀ t, T ≤ t → x ∈ (gRun e t).doc m) :
    ∃ T, ∀ t, T ≤ t → ∀ x ∈ S, x ∈ (gRun e t).doc m := by
  classical
  induction S using Finset.induction_on with
  | empty => exact ⟨0, fun t _ x hx => absurd hx (by simp)⟩
  | insert hnotmem ih =>
      rename_i a S'
      obtain ⟨Ta, hTa⟩ := h a (by simp)
      obtain ⟨TS, hTS⟩ := ih fun x hx => h x (by simp [hx])
      refine ⟨max Ta TS, fun t ht x hx => ?_⟩
      rcases Finset.mem_insert.mp hx with rfl | hx'
      · exact hTa t (le_trans (le_max_left _ _) ht)
      · exact hTS t (le_trans (le_max_right _ _) ht) x hx'

/-- Claim C9 as stated: in any execution whose deliveries follow the
neighborhood relation, where each node receives infinitely many gossip
deliveries from each node that gossips to it, and whose workload operations
stop after some point (the delivered broadcast sequences are finite), every
node's document converges to the union of all operations produced at any
node. -/
def C9ClaimStatement : Prop :=
  ∀ (ι : Type) [DecidableEq ι] (nbhd : ι → ι → Prop) (e : Nat → GEvent ι),
    (∀ t n m, e t = GEvent.deliver n m → nbhd n m) →
    (∀ n m, nbhd n m → ∀ T, ∃ t, T ≤ t ∧ e t = GEvent.deliver n m) →
    (∃ T0, ∀ t, T0 ≤ t → ∀ n x, e t ≠ GEvent.op n x) →
    ∀ n, ∃ T, ∀ t, T ≤ t → ((gRun e t).doc n : Set Nat) = allOpsSet e

/-- The counterexample execution: two nodes (Bool), empty neighborhoods, one
broadcast of operation 7 at node false, then nothing. -/
def cxE : Nat → GEvent Bool := fun t =>
  if t = 0 then GEvent.op false 7 else GEvent.idle

theorem cxE_doc_true_empty (t : Nat) : (gRun cxE t).doc true = ∅ := by
  induction t with
  | zero => rfl
  | succ t ih =>
      show (gStep (gRun cxE t) (cxE t)).doc true = ∅
      by_cases ht : t = 0
      · subst ht
        have hcx : cxE 0 = GEvent.op false 7 := rfl
        rw [hcx]
        simp only [gStep]
        rw [Function.update_noteq (show (true : Bool) ≠ false by simp)]
        exact ih
      · have hcx : cxE t = GEvent.idle := by simp [cxE, ht]
        rw [hcx]
        exact ih

/-- Claim C9, counterexample: with empty neighborhoods every node trivially
receives infinitely many deliveries from each of its (zero) gossip sources,
yet node true never learns operation 7 produced at node false — the claim
as stated is false because nothing connects the randomly chosen
neighborhoods: a node outside every neighborhood (possible, since each
inclusion is an independent 0.75 draw with self never a gossip target of
itself) never converges to the union. -/
theorem c9_needs_connectivity : ¬ C9ClaimStatement := by
  intro h
  have hconc := h Bool (fun _ _ => False) cxE
    (by
      intro t n m hd
      by_cases ht : t = 0
      · rw [ht] at hd
        simp [cxE] at hd
      · simp [cxE, ht] at hd)
    (by intro n m hf; exact absurd hf (by simp))
    ⟨1, by
      intro t ht n x
      have ht0 : t ≠ 0 := by omega
      simp [cxE, ht0]⟩
  obtain ⟨T, hT⟩ := hconc true
  have h7 : (7 : Nat) ∈ allOpsSet cxE := ⟨0, false, rfl⟩
  have hempty := hT T le_rfl
  rw [cxE_doc_true_empty T] at hempty
  rw [← hempty] at h7
  simp at h7

/-- Claim C9 (amended): add the connectivity the spec's random neighborhoods
do not guarantee.  In any execution in which gossip deliveries along each
neighborhood edge happen infinitely often (with the diff computed by the
sender at delivery time), the workload operations stop after some point, and
every node can reach every other along neighborhood edges, every node's
document converges to the union of all operations produced at any node — in
particular, after convergence every read returns every broadcast message. -/
theorem c9_amended {ι : Type} [DecidableEq ι] (nbhd : ι → ι → Prop)
    (e : Nat → GEvent ι)
    (hfair : ∀ n m, nbhd n m → ∀ T, ∃ t, T ≤ t ∧ e t = GEvent.deliver n m)
    (hcease : ∃ T0, ∀ t, T0 ≤ t → ∀ n x, e t ≠ GEvent.op n x)
    (hconn : ∀ n m, Relation.ReflTransGen nbhd n m) :
    ∀ n, ∃ T, ∀ t, T ≤ t → ((gRun e t).doc n : Set Nat) = allOpsSet e := by
  intro n
  obtain ⟨T0, hT0⟩ := hcease
  have hops : allOpsSet e = (opsFin e T0 : Set Nat) :=
    allOpsSet_eq_opsFin e T0 hT0
  have hmem : ∀ x ∈ opsFin e T0, ∃ T, ∀ t, T ≤ t → x ∈ (gRun e t).doc n := by
    intro x hx
    have hxall : x ∈ allOpsSet e := by
      rw [hops]
      exact hx
    exact gRun_eventually_mem nbhd e hfair hconn n x hxall
  obtain ⟨T, hT⟩ := eventually_subset_of_finset e n (opsFin e T0) hmem
  refine ⟨T, fun t ht => Set.Subset.antisymm ?_ ?_⟩
  · exact gRun_doc_subset_allOps e t n
  · rw [hops]
    intro x hx
    exact hT t ht x hx

/-! ## Witnesses: concrete instantiations discharging each hypothesis -/

theorem c2_amended_witness :
    ((fun _ : Nat => (none : Option (Message Unit))) 0 = none) ∧
    event_loop (fun _ : Nat => (none : Option (Message Unit)))
        (fun (s : Nat) (_ : Event Unit Unit) => Except.ok s)
        ([] : List (ExtHandler Nat)) 5 [ToEvent.message 0] =
      (Dispatch.droppedSilently 0 ::
          (event_loop (fun _ : Nat => (none : Option (Message Unit)))
            (fun (s : Nat) (_ : Event Unit Unit) => Except.ok s) [] 5 []).1,
       (event_loop (fun _ : Nat => (none : Option (Message Unit)))
          (fun (s : Nat) (_ : Event Unit Unit) => Except.ok s) [] 5 []).2) :=
  ⟨rfl,
   (c2_amended (fun _ : Nat => (none : Option (Message Unit)))
      (fun (s : Nat) (_ : Event Unit Unit) => Except.ok s) [] 5 0 [] rfl).2
     (by simp)⟩

theorem c3_amended_witness :
    (["n1", "n2"] : List String).length = ([true, false] : List Bool).length ∧
    (["n1", "n2"] : List String).Nodup ∧
    ((["n1", "n2"] : List String).get ⟨0, by decide⟩ ∈
        broadcastNeighborhood ["n1", "n2"] [true, false] ↔
      (([true, false] : List Bool).get ⟨0, by decide⟩) = true) :=
  ⟨rfl, by decide,
   (c3_amended ["n1", "n2"] [true, false] false rfl (by decide) 0
      (by decide) (by decide)).1⟩

theorem c4_gossip_emission_witness :
    ("n2" ∈ ["n2"]) ∧
    (gossipMsgTo "n1" (fun _ => (0 : Nat)) (fun _ => [0]) 1 (fun _ => [1]) "n2" ∈
        sendGossip "n1" ["n2"] (fun _ => (0 : Nat)) (fun _ => [0]) 1
          (fun _ => [1]) (fun _ => false) ↔
      ((fun _ => (0 : Nat)) "n2" ≠ 1 ∨ (fun _ => false) "n2" = true)) :=
  ⟨by simp,
   (c4_gossip_emission "n1" ["n2"] (fun _ => (0 : Nat)) (fun _ => [0]) 1
      (fun _ => [1]) (fun _ => false) "n2" (by simp)).1⟩

theorem c5_amended_witness :
    (∀ sv : Nat, (∀ b ∈ ((fun _ => [0]) : Nat → List Nat) sv, b < 256) ∧
      (∀ b ∈ ((fun _ => [1]) : Nat → List Nat) sv, b < 256)) ∧
    b64decodeCanonical (b64encodeNoPad [0]) = none :=
  ⟨fun _ => ⟨by intro b hb; simp at hb; omega,
     by intro b hb; simp at hb; omega⟩,
   (c5_amended "n1" ["n2"] (fun _ => (0 : Nat)) (fun _ => [0]) 1
      (fun _ => [1]) (fun _ => false)
      (fun _ => ⟨by intro b hb; simp at hb; omega,
        by intro b hb; simp at hb; omega⟩)).2 [0] (by decide)⟩

theorem c7_send_offsets_witness :
    ((mapLookup ([] : List (String × List Nat)) "k").getD [] = []) ∧
    (processSends ([] : List (String × List Nat)) "k" [10, 20, 30]).2 =
      List.range 3 :=
  ⟨rfl, (c7_send_offsets ([] : List (String × List Nat)) "k" [10, 20, 30]
      rfl).2.1⟩

theorem c8_amended_witness :
    ((5 : Nat) < 2 ^ 63) ∧
    ((0 : Int) ≤
      (mapLookup ([] : List (String × Int)) (toString (42 : Nat))).getD 0) ∧
    ((mapLookup ([] : List (String × Int)) (toString (42 : Nat))).getD 0 +
      ((5 : Nat) : Int) < 2 ^ 63) ∧
    (∀ p ∈ ({ node_id := "n1", client_id := 42, counter := [] } :
        GCounterNode).counter, (0 : Int) ≤ p.2) ∧
    ((({ node_id := "n1", client_id := 42, counter := [] } :
        GCounterNode).counter.map fun p => p.2.toNat).sum < 2 ^ 64) ∧
    mapLookup (gCounterAdd
        { node_id := "n1", client_id := 42, counter := [] } 5).1.counter
      (toString (42 : Nat)) = some 5 :=
  ⟨by norm_num,
   by simp [mapLookup],
   by simp [mapLookup],
   by simp,
   by norm_num,
   (c8_amended { node_id := "n1", client_id := 42, counter := [] } 5
      (by norm_num) (by simp [mapLookup]) (by simp [mapLookup])
      (by simp) (by norm_num)).1⟩

theorem c10_poll_entries_witness :
    (([("k", 1), ("x", 0)] : List (String × Nat)).map Prod.fst).Nodup ∧
    (handle_poll [("k", [10, 20])] [("k", 1), ("x", 0)]).lookup "k" =
      some (([10, 20] : List Nat).enum.drop 1) :=
  ⟨by decide,
   ((c10_poll_entries [("k", [10, 20])] [("k", 1), ("x", 0)]
      (by decide)).2 "k" 1 [10, 20] (by simp) (by decide)).1⟩

/-- Witness execution for the amended convergence claim: two nodes that
gossip to each other alternately, after node false broadcasts operation 7 at
time 0. -/
def wNbhd : Bool → Bool → Prop := fun a b => a ≠ b

/-- Witness execution events. -/
def wE : Nat → GEvent Bool := fun t =>
  if t = 0 then GEvent.op false 7
  else if t % 2 = 1 then GEvent.deliver false true
  else GEvent.deliver true false

theorem c9w_fair : ∀ n m : Bool, wNbhd n m →
    ∀ T, ∃ t, T ≤ t ∧ wE t = GEvent.deliver n m := by
  intro n m hnm T
  cases n <;> cases m
  · exact absurd rfl hnm
  · refine ⟨2 * T + 1, by omega, ?_⟩
    have h0 : 2 * T + 1 ≠ 0 := by omega
    have h1 : (2 * T + 1) % 2 = 1 := by omega
    simp [wE, h0, h1]
  · refine ⟨2 * T + 2, by omega, ?_⟩
    have h0 : 2 * T + 2 ≠ 0 := by omega
    have h1 : (2 * T + 2) % 2 = 0 := by omega
    simp [wE, h0, h1]
  · exact absurd rfl hnm

theorem c9w_cease : ∃ T0, ∀ t, T0 ≤ t → ∀ n x, wE t ≠ GEvent.op n x := by
  refine ⟨1, fun t ht n x => ?_⟩
  have ht0 : t ≠ 0 := by omega
  simp only [wE, if_neg ht0]
  split <;> simp

theorem c9w_conn : ∀ n m : Bool, Relation.ReflTransGen wNbhd n m := by
  intro n m
  cases n <;> cases m
  · exact Relation.ReflTransGen.refl
  · exact Relation.ReflTransGen.single (by simp [wNbhd])
  · exact Relation.ReflTransGen.single (by simp [wNbhd])
  · exact Relation.ReflTransGen.refl

theorem c9_amended_witness :
    (∀ n m : Bool, wNbhd n m →
      ∀ T, ∃ t, T ≤ t ∧ wE t = GEvent.deliver n m) ∧
    (∃ T0, ∀ t, T0 ≤ t → ∀ n x, wE t ≠ GEvent.op n x) ∧
    (∀ n m : Bool, Relation.ReflTransGen wNbhd n m) ∧
    (∃ T, ∀ t, T ≤ t → ((gRun wE t).doc true : Set Nat) = allOpsSet wE) :=
  ⟨c9w_fair, c9w_cease, c9w_conn,
   c9_amended wNbhd wE c9w_fair c9w_cease c9w_conn true⟩
